import Mathlib

/-!
Verification of the ugit_rust core (object store, reference resolver,
tree codec, commit graph) against its natural-language specification.

The Rust code operates on a filesystem.  We shallowly embed it as pure
Lean functions over an explicit file map (`Files`): an association list
from paths (lists of characters) to file contents (lists of characters),
where `fsWrite` prepends a binding exactly as `fs::write` overwrites the
previous contents (lookup finds the most recent binding).  The SHA-256
digest is an abstract parameter `sha : List Char → List Char`; theorems
that need its properties (injectivity — the spec's collision-freedom
assumption — and hex-string output) take them as hypotheses, and the
concrete injective hex encoder `hexEnc` below discharges them in
witnesses.  `repository_initialized` is assumed true throughout (the
repository-discovery walk is outside the modelled state); the one place
where the presence of the repository is itself the property under test
(`empty_current_directory`) models it explicitly on the working
directory.  Rust panics are modelled as the distinguished error value
`Err.panic`, kept separate from the recoverable `io::Error` values.
-/

/-! ### Character-list utilities mirroring the Rust string operations -/

/-- Null character used as the tag separator in stored objects. -/
def nulC : Char := Char.ofNat 0

/-- Rust `str::splitn(2, c)`: the part before the first `c`, and
(optionally) everything after it. -/
def splitn2C (c : Char) : List Char → List Char × Option (List Char)
  | [] => ([], none)
  | x :: xs =>
    if x = c then ([], some xs)
    else
      let (a, r) := splitn2C c xs
      (x :: a, r)

/-- Rust `str::splitn(3, c)`: between one and three parts. -/
def splitn3C (c : Char) (xs : List Char) : List (List Char) :=
  match splitn2C c xs with
  | (a, none) => [a]
  | (a, some rest) =>
    match splitn2C c rest with
    | (b, none) => [a, b]
    | (b, some r2) => [a, b, r2]

/-- Rust `str::split(c)` (always at least one part). -/
def splitOnC (c : Char) : List Char → List (List Char)
  | [] => [[]]
  | x :: xs =>
    if x = c then [] :: splitOnC c xs
    else
      match splitOnC c xs with
      | [] => [[x]]
      | h :: t => (x :: h) :: t

/-- Strip one trailing carriage return, as `str::lines()` does to the
`'\r'` of a `"\r\n"` terminator. -/
def stripCR (l : List Char) : List Char :=
  if l.getLast? = some '\r' then l.dropLast else l

/-- Rust `str::lines()`: lines are terminated by `'\n'` or `"\r\n"` and
returned without their terminator, so every segment that was followed by
a `'\n'` loses a trailing `'\r'` if it has one; a final segment with no
terminator is returned verbatim (a bare trailing `'\r'` stays), and a
string ending in a terminator yields no empty final line. -/
def rustLines (xs : List Char) : List (List Char) :=
  let p := splitOnC '\n' xs
  if p.getLast? = some [] then (p.dropLast).map stripCR
  else (p.dropLast).map stripCR ++ p.getLast?.toList

/-- Rust `Vec::join(sep)`. -/
def joinWith (sep : List Char) : List (List Char) → List Char
  | [] => []
  | [x] => x
  | x :: xs => x ++ sep ++ joinWith sep xs

/-- Hex-digit test from `utils::is_hex` (`0-9` and `a-f` only). -/
def is_hex_char (c : Char) : Bool := ('0' ≤ c ∧ c ≤ '9') ∨ ('a' ≤ c ∧ c ≤ 'f')

/-- `utils::is_hex`: every character is a hex digit. -/
def is_hex (s : List Char) : Bool := s.all is_hex_char

/-! ### Error model

Recoverable `io::Error` values and Rust panics, each mapped to a
distinct constructor.  `fuelOut` is a model artifact for the two
unbounded recursions in the source (symbolic-ref dereferencing and tree
expansion), which the embedding bounds by explicit fuel. -/

/-- Error outcomes of the embedded operations. -/
inductive Err where
  /-- `ErrorKind::NotFound`: no repository. -/
  | repoNotFound
  /-- `ErrorKind::NotFound`: no object file with the given OID. -/
  | objectNotFound
  /-- `ErrorKind::InvalidData`: stored tag differs from the expected tag. -/
  | typeMismatch
  /-- `fs::read_to_string` on bytes that are not valid UTF-8. -/
  | invalidUtf8
  /-- `ErrorKind::InvalidInput`: a name matched more than one ref kind. -/
  | ambiguousRef
  /-- `ErrorKind::InvalidInput`: directory entry neither file nor directory. -/
  | unsupportedEntry
  /-- `ErrorKind::InvalidInput`: tree line with an unknown entry type. -/
  | invalidInput
  /-- `ErrorKind::InvalidData`: commit payload without a tree line. -/
  | missingTree
  /-- An `io::Error` from a raw filesystem read (e.g. missing file). -/
  | ioError
  /-- A Rust panic (contract violation or out-of-bounds index). -/
  | panic
  /-- Model artifact: recursion fuel exhausted. -/
  | fuelOut
deriving Repr, DecidableEq

/-- Decidable equality of `Except` results, for evaluating concrete
outcomes in witnesses. -/
instance {ε α : Type} [DecidableEq ε] [DecidableEq α] : DecidableEq (Except ε α) := fun a b =>
  match a, b with
  | .error x, .error y =>
    match decEq x y with
    | isTrue h => isTrue (h ▸ rfl)
    | isFalse h => isFalse fun he => h (Except.error.inj he)
  | .ok x, .ok y =>
    match decEq x y with
    | isTrue h => isTrue (h ▸ rfl)
    | isFalse h => isFalse fun he => h (Except.ok.inj he)
  | .error _, .ok _ => isFalse fun he => Except.noConfusion he
  | .ok _, .error _ => isFalse fun he => Except.noConfusion he

/-- The three object tags of `data::ObjectType`. -/
inductive ObjectType where
  | blob
  | commit
  | tree
deriving Repr, DecidableEq

/-- The tag string written in front of a stored object's payload. -/
def tagChars : ObjectType → List Char
  | .blob => "blob".data
  | .commit => "commit".data
  | .tree => "tree".data

/-- A stored object's on-disk bytes: `tag`, NUL, payload. -/
def tagged (t : ObjectType) (p : List Char) : List Char :=
  tagChars t ++ nulC :: p

/-! ### The file map -/

/-- The filesystem fragment under the repository, as a path-indexed
association list; the head of the list is the most recent write. -/
abbrev Files := List (List Char × List Char)

/-- Read a file: the most recently written binding for the path. -/
def fsLookup (σ : Files) (p : List Char) : Option (List Char) :=
  match σ with
  | [] => none
  | (q, c) :: rest => if q = p then some c else fsLookup rest p

/-- `fs::write`: overwrite by shadowing. -/
def fsWrite (σ : Files) (p c : List Char) : Files := (p, c) :: σ

/-- Path of a stored object (`.ugit/objects/<oid>`). -/
def objPath (oid : List Char) : List Char := ".ugit/objects/".data ++ oid

/-- Path of a tag ref (`.ugit/refs/tags/<name>`). -/
def tagPath (name : List Char) : List Char := ".ugit/refs/tags/".data ++ name

/-- Path of a branch ref (`.ugit/refs/heads/<name>`). -/
def headsPath (name : List Char) : List Char := ".ugit/refs/heads/".data ++ name

/-- Path of the HEAD ref (`.ugit/HEAD`). -/
def headPath : List Char := ".ugit/HEAD".data

/-! ### Object store (`data::hash_object`, `data::get_object`)

`hash_object` is embedded at the character level: file contents read by
`fs::read_to_string` are modelled as the decoded character list.  A
separate byte-level embedding of the same pair of functions
(`hash_objectB` / `get_objectB`) captures the UTF-8 decoding step of
`fs::read_to_string` exactly, for the round-trip claim over arbitrary
byte payloads. -/

/-- `data::hash_object`: prepend the tag and a NUL, hash, store at the
digest-derived path, return the digest. -/
def hash_object (sha : List Char → List Char) (σ : Files)
    (fileContents : List Char) (t : ObjectType) : List Char × Files :=
  let contents := tagged t fileContents
  let oid := sha contents
  (oid, fsWrite σ (objPath oid) contents)

/-- `data::get_object`: read the object file, check the stored tag
against the expected tag, return the payload after the NUL.  A stored
file with a matching tag but no NUL separator would make the Rust
`content_parts[1]` index panic. -/
def get_object (σ : Files) (oid : List Char) (t : ObjectType) :
    Except Err (List Char) :=
  match fsLookup σ (objPath oid) with
  | none => .error .objectNotFound
  | some contents =>
    let (p0, rest) := splitn2C nulC contents
    if p0 = tagChars t then
      match rest with
      | none => .error .panic
      | some payload => .ok payload
    else .error .typeMismatch

/-! ### Byte-level object store

`fs::read(..)` hands `hash_object` raw bytes, but `get_object` reads the
stored file back with `fs::read_to_string`, which fails on bytes that
are not valid UTF-8 (the source carries a TODO acknowledging this).
Bytes are `Nat`s below 256; the store is keyed by the OID bytes. -/

/-- Strict UTF-8 decoding as performed by `fs::read_to_string`
(rejecting overlong forms, surrogates and out-of-range values). -/
def utf8Decode : List Nat → Option (List Char)
  | [] => some []
  | b :: rest =>
    if b < 0x80 then
      match utf8Decode rest with
      | some cs => some (Char.ofNat b :: cs)
      | none => none
    else if b < 0xC2 then none
    else if b < 0xE0 then
      match rest with
      | b2 :: r2 =>
        if 0x80 ≤ b2 ∧ b2 < 0xC0 then
          match utf8Decode r2 with
          | some cs => some (Char.ofNat ((b - 0xC0) * 0x40 + (b2 - 0x80)) :: cs)
          | none => none
        else none
      | [] => none
    else if b < 0xF0 then
      match rest with
      | b2 :: b3 :: r3 =>
        if (0x80 ≤ b2 ∧ b2 < 0xC0) ∧ (0x80 ≤ b3 ∧ b3 < 0xC0) ∧
           (b = 0xE0 → 0xA0 ≤ b2) ∧ (b = 0xED → b2 < 0xA0) then
          match utf8Decode r3 with
          | some cs =>
            some (Char.ofNat ((b - 0xE0) * 0x1000 + (b2 - 0x80) * 0x40 + (b3 - 0x80)) :: cs)
          | none => none
        else none
      | _ => none
    else if b < 0xF5 then
      match rest with
      | b2 :: b3 :: b4 :: r4 =>
        if (0x80 ≤ b2 ∧ b2 < 0xC0) ∧ (0x80 ≤ b3 ∧ b3 < 0xC0) ∧ (0x80 ≤ b4 ∧ b4 < 0xC0) ∧
           (b = 0xF0 → 0x90 ≤ b2) ∧ (b = 0xF4 → b2 < 0x90) then
          match utf8Decode r4 with
          | some cs =>
            some (Char.ofNat ((b - 0xF0) * 0x40000 + (b2 - 0x80) * 0x1000 +
                              (b3 - 0x80) * 0x40 + (b4 - 0x80)) :: cs)
          | none => none
        else none
      | _ => none
    else none

/-- Byte form of the object tag. -/
def tagBytes : ObjectType → List Nat
  | .blob => [0x62, 0x6C, 0x6F, 0x62]
  | .commit => [0x63, 0x6F, 0x6D, 0x6D, 0x69, 0x74]
  | .tree => [0x74, 0x72, 0x65, 0x65]

/-- Byte-level object store, keyed by the OID bytes. -/
abbrev BFiles := List (List Nat × List Nat)

/-- Lookup in the byte-level store. -/
def bLookup (σ : BFiles) (p : List Nat) : Option (List Nat) :=
  match σ with
  | [] => none
  | (q, c) :: rest => if q = p then some c else bLookup rest p

/-- Byte-level `data::hash_object`. -/
def hash_objectB (shaB : List Nat → List Nat) (σ : BFiles)
    (fileContents : List Nat) (t : ObjectType) : List Nat × BFiles :=
  let contents := tagBytes t ++ 0 :: fileContents
  let oid := shaB contents
  (oid, (oid, contents) :: σ)

/-- Byte-level `data::get_object`: `fs::read_to_string` first decodes
the whole stored file as UTF-8 and fails on invalid bytes, before the
tag is split off. -/
def get_objectB (σ : BFiles) (oid : List Nat) (t : ObjectType) :
    Except Err (List Char) :=
  match bLookup σ oid with
  | none => .error .objectNotFound
  | some bytes =>
    match utf8Decode bytes with
    | none => .error .invalidUtf8
    | some contents =>
      let (p0, rest) := splitn2C nulC contents
      if p0 = tagChars t then
        match rest with
        | none => .error .panic
        | some payload => .ok payload
      else .error .typeMismatch

/-! ### Reference resolver (`data.rs`)

Ref files hold either a bare OID or a symbolic pointer `ref:<path>`.
`recur_deref` follows symbolic pointers by reading files; the embedding
bounds the (source-unbounded) recursion with fuel. -/

/-- The symbolic marker `"ref:"`. -/
def refMarker : List Char := "ref:".data

/-- In-memory projection of a ref (`data::RefValue`). -/
structure RefValue where
  symbolic : Bool
  value : Option (List Char)
  path : List Char
deriving Repr, DecidableEq

/-- `data::recur_deref`: read the file at `path`; on a symbolic value,
split off the marker and either recurse into the target (when `deref`)
or return the target location.  A missing file is a raw read error. -/
def recur_deref (σ : Files) (deref : Bool) : Nat → List Char → Except Err (List Char)
  | 0, _ => .error .fuelOut
  | fuel + 1, path =>
    match fsLookup σ path with
    | none => .error .ioError
    | some contents =>
      if refMarker.isPrefixOf contents then
        let target := (splitn2C ':' contents).2.getD []
        if deref then recur_deref σ deref fuel target else .ok target
      else .ok contents

/-- `data::get_ref_file`: `none` when no file exists at `path`;
otherwise the `recur_deref` result, with the `symbolic` flag computed
on the returned value and `path` kept as the original path. -/
def get_ref_file (σ : Files) (path : List Char) (deref : Bool) (fuel : Nat) :
    Option (Except Err RefValue) :=
  match fsLookup σ path with
  | none => none
  | some _ =>
    match recur_deref σ deref fuel path with
    | .error e => some (.error e)
    | .ok v => some (.ok ⟨refMarker.isPrefixOf v, some v, path⟩)

/-- `data::get_ref`: a missing ref file becomes the non-symbolic,
valueless `RefValue` rather than an error. -/
def get_ref (σ : Files) (path : List Char) (deref : Bool) (fuel : Nat) :
    Except Err RefValue :=
  match get_ref_file σ path deref fuel with
  | some r => r
  | none => .ok ⟨false, none, path⟩

/-- `data::validate_user_given_ref`: strip a leading `ref:` marker,
then inspect the stored object named by the remainder — acceptable when
its contents are entirely hex (a ref pointing at another OID) or carry
the `commit` tag. -/
def validate_user_given_ref (σ : Files) (oid : List Char) : Bool :=
  let oid' := if refMarker.isPrefixOf oid then (splitn2C ':' oid).2.getD [] else oid
  match fsLookup σ (objPath oid') with
  | none => false
  | some contents =>
    if is_hex contents then true
    else (splitn2C nulC contents).1 = "commit".data

/-- `data::update_ref_file`: panic unless the value validates, else
write it. -/
def update_ref_file (σ : Files) (path oid : List Char) : Except Err Files :=
  if validate_user_given_ref σ oid then .ok (fsWrite σ path oid)
  else .error .panic

/-- The string actually written for a ref value (`"ref:" ++ v` when
symbolic). -/
def write_value (rv : RefValue) (v : List Char) : List Char :=
  if rv.symbolic then refMarker ++ v else v

/-- `data::update_ref`: resolve the destination path through `get_ref`
(which never changes the path), panic on an empty value, else write
through `update_ref_file`. -/
def update_ref (σ : Files) (rv : RefValue) (deref : Bool) (fuel : Nat) :
    Except Err Files :=
  match get_ref σ rv.path deref fuel with
  | .error e => .error e
  | .ok resolved =>
    match rv.value with
    | none => .error .panic
    | some v => update_ref_file σ resolved.path (write_value rv v)

/-- `data::set_head`: write straight to the HEAD path. -/
def set_head (σ : Files) (oid : List Char) : Except Err Files :=
  update_ref_file σ headPath oid

/-- `data::get_head`: read HEAD without dereferencing; `none` when the
file does not exist or carries no value. -/
def get_head (σ : Files) : Option (Except Err (List Char)) :=
  match get_ref_file σ headPath false 1 with
  | none => none
  | some (.error e) => some (.error e)
  | some (.ok rv) =>
    match rv.value with
    | some v => some (.ok v)
    | none => none

/-- One accumulation step of `locate_ref_or_oid`: count a successful
check and remember its `RefValue`. -/
def locStep (acc : Nat × Option RefValue) (r : Option (Except Err RefValue)) :
    Nat × Option RefValue :=
  match r with
  | some (.ok rv) => (acc.1 + 1, some rv)
  | _ => acc

/-- `data::locate_ref_or_oid`: probe, independently and without
dereferencing, the tag path, the branch path, the object path, and
(only for the literal names `HEAD` and `@`) the HEAD path; `none` when
nothing matched, an ambiguity error when more than one matched, else
the single match's value.  `deref = false` never recurses, so the probes
run with fuel 1. -/
def locate_ref_or_oid (σ : Files) (s : List Char) : Option (Except Err (List Char)) :=
  let a1 := locStep (0, none) (get_ref_file σ (tagPath s) false 1)
  let a2 := locStep a1 (get_ref_file σ (headsPath s) false 1)
  let a3 := locStep a2 (get_ref_file σ (objPath s) false 1)
  let a4 :=
    if s = "HEAD".data ∨ s = "@".data then
      locStep a3 (get_ref_file σ headPath false 1)
    else a3
  match a4.2 with
  | none => none
  | some rv =>
    if a4.1 > 1 then some (.error .ambiguousRef)
    else
      match rv.value with
      | some oid => some (.ok oid)
      | none => some (.error .panic)

/-- Number of the four independent checks of `locate_ref_or_oid` that
succeed for a name (a check succeeds exactly when the probed file
exists). -/
def locateCount (σ : Files) (s : List Char) : Nat :=
  (if (fsLookup σ (tagPath s)).isSome then 1 else 0)
  + (if (fsLookup σ (headsPath s)).isSome then 1 else 0)
  + (if (fsLookup σ (objPath s)).isSome then 1 else 0)
  + (if (s = "HEAD".data ∨ s = "@".data) ∧ (fsLookup σ headPath).isSome then 1 else 0)

/-- One level of the value transformation `get_ref_file` applies when
`deref` is false: strip the symbolic marker if present. -/
def stripOne (c : List Char) : List Char :=
  if refMarker.isPrefixOf c then (splitn2C ':' c).2.getD [] else c

/-! ### Working directory and tree codec (`base.rs`)

A directory's entry list is an `FsTree`: a cons-list of named entries,
each a regular file, a subdirectory (with its own entry list), or
something else (`other`, e.g. a symlink — neither file nor directory).
The list order models the filesystem enumeration order of
`fs::read_dir`. -/

/-- Entry list of one directory, in enumeration order. -/
inductive FsTree where
  | nil : FsTree
  | file (name contents : List Char) (rest : FsTree) : FsTree
  | dir (name : List Char) (entries : FsTree) (rest : FsTree) : FsTree
  | other (name : List Char) (rest : FsTree) : FsTree
deriving Repr, DecidableEq

/-- `base::is_ignored`: the final path component is `.ugit` or
`target`. -/
def is_ignored (n : List Char) : Bool := n = ".ugit".data || n = "target".data

/-- One serialized tree entry: type, OID, name. -/
abbrev TreeEnt := List Char × List Char × List Char

/-- The serialized line of one tree entry (`"<type> <oid> <name>"`). -/
def entLine (e : TreeEnt) : List Char := e.1 ++ ' ' :: e.2.1 ++ ' ' :: e.2.2

/-- Newline-joined tree payload of a list of entries. -/
def serializeEnts (ents : List TreeEnt) : List Char :=
  joinWith ['\n'] (ents.map entLine)

/-- The entry loop of `base::write_tree_recursive`: hash every
non-ignored file as a blob, recurse into every non-ignored directory
and hash its serialized entries as a tree, fail on anything else;
collect the `(type, oid, name)` triples in order. -/
def writeEntries (sha : List Char → List Char) :
    FsTree → Files → Except Err (List TreeEnt × Files)
  | .nil, σ => .ok ([], σ)
  | .file n c r, σ =>
    if is_ignored n then writeEntries sha r σ
    else
      let (oid, σ1) := hash_object sha σ c .blob
      match writeEntries sha r σ1 with
      | .error e => .error e
      | .ok (ents, σ2) => .ok (("blob".data, oid, n) :: ents, σ2)
  | .dir n sub r, σ =>
    if is_ignored n then writeEntries sha r σ
    else
      match writeEntries sha sub σ with
      | .error e => .error e
      | .ok (subEnts, σ1) =>
        let (oid, σ2) := hash_object sha σ1 (serializeEnts subEnts) .tree
        match writeEntries sha r σ2 with
        | .error e => .error e
        | .ok (ents, σ3) => .ok (("tree".data, oid, n) :: ents, σ3)
  | .other n r, σ =>
    if is_ignored n then writeEntries sha r σ else .error .unsupportedEntry

/-- `base::write_tree_recursive` applied to a directory with entry list
`d` (the guard that the argument is a directory is built into the
type): serialize the collected entries and store them as a `tree`
object. -/
def write_tree_recursive (sha : List Char → List Char) (d : FsTree) (σ : Files) :
    Except Err (List Char × Files) :=
  match writeEntries sha d σ with
  | .error e => .error e
  | .ok (ents, σ1) => .ok (hash_object sha σ1 (serializeEnts ents) .tree)

/-- Relative path inside the restored directory, as a component list. -/
abbrev RPath := List (List Char)

/-- The line loop of `base::get_tree`, parameterized by the expansion
used for `tree` entries (the recursive `get_tree` call at the next fuel
level).  Each line is split into at most three parts; Rust reads
`parts[1]` and `parts[2]` before inspecting the type, so a short line is
an index panic. -/
def getTreeLinesWith (expand : List Char → RPath → Except Err (List (RPath × List Char))) :
    List (List Char) → RPath → Except Err (List (RPath × List Char))
  | [], _ => .ok []
  | line :: rest, base =>
    match splitn3C ' ' line with
    | [t, o, n] =>
      let path := base ++ [n]
      if t = "blob".data then
        match getTreeLinesWith expand rest base with
        | .error e => .error e
        | .ok acc => .ok ((path, o) :: acc)
      else if t = "tree".data then
        match expand o path with
        | .error e => .error e
        | .ok sub =>
          match getTreeLinesWith expand rest base with
          | .error e => .error e
          | .ok acc => .ok (sub ++ acc)
      else .error .invalidInput
    | _ => .error .panic

/-- `base::get_tree`: read the tree object and expand it, depth first,
into the flat list of `(path, blob OID)` pairs; fuel bounds the
recursion into stored sub-trees. -/
def get_tree (σ : Files) : Nat → List Char → RPath → Except Err (List (RPath × List Char))
  | 0, _, _ => .error .fuelOut
  | f + 1, oid, base =>
    match get_object σ oid .tree with
    | .error e => .error e
    | .ok payload => getTreeLinesWith (get_tree σ f) (rustLines payload) base

/-- Does the working directory contain a subdirectory named `.ugit`
(the `root.is_dir()` check of `base::empty_current_directory`)? -/
def hasUgit : FsTree → Bool
  | .nil => false
  | .file _ _ r => hasUgit r
  | .dir n _ r => n = ".ugit".data || hasUgit r
  | .other _ r => hasUgit r

/-- What `base::empty_current_directory` leaves behind: ignored files
and directories survive, and so does anything that is neither a file
nor a directory (the loop has no branch for it). -/
def emptiedDir : FsTree → FsTree
  | .nil => .nil
  | .file n c r => if is_ignored n then .file n c (emptiedDir r) else emptiedDir r
  | .dir n s r => if is_ignored n then .dir n s (emptiedDir r) else emptiedDir r
  | .other n r => .other n (emptiedDir r)

/-- `base::empty_current_directory`: panic (before deleting anything)
unless the working directory itself contains the `.ugit` directory. -/
def empty_current_directory (cwd : FsTree) : Except Err FsTree :=
  if hasUgit cwd then .ok (emptiedDir cwd) else .error .panic

/-- The final write loop of `base::read_tree`: fetch each blob and
record the `(path, contents)` pair written to disk. -/
def writeAll (σ : Files) : List (RPath × List Char) → Except Err (List (RPath × List Char))
  | [] => .ok []
  | (p, oid) :: rest =>
    match get_object σ oid .blob with
    | .error e => .error e
    | .ok contents =>
      match writeAll σ rest with
      | .error e => .error e
      | .ok acc => .ok ((p, contents) :: acc)

/-- `base::read_tree`: empty the working directory (guarded by the
repository check), expand the tree, then write every blob.  The result
is the surviving directory entries and the list of files written, which
together describe the directory after the call. -/
def read_tree (σ : Files) (oid : List Char) (cwd : FsTree) (fuel : Nat) :
    Except Err (FsTree × List (RPath × List Char)) :=
  match empty_current_directory cwd with
  | .error e => .error e
  | .ok cwd' =>
    match get_tree σ fuel oid [] with
    | .error e => .error e
    | .ok pairs =>
      match writeAll σ pairs with
      | .error e => .error e
      | .ok files => .ok (cwd', files)

/-! ### Commit records (`base.rs`) -/

/-- Decoded commit record (`data::Commit`). -/
structure Commit where
  message : List Char
  parent : Option (List Char)
  tree : List Char
deriving Repr, DecidableEq

/-- The header/message loop of `base::get_commit`: header lines up to
the first blank line must start with `tree` or `parent` (anything else
panics, as does a missing ` ` separator); the message is
`lines.next().unwrap()` — a panic when no line follows the header —
joined with the remaining lines; a commit without a tree line is a
recoverable `InvalidData` error, checked only after the message is
read. -/
def parseCommit : List (List Char) → List Char → Option (List Char) → Except Err Commit
  | [], _, _ => .error .panic
  | [] :: rest, tree, parent =>
    match rest with
    | [] => .error .panic
    | m :: ms =>
      let message := joinWith ['\n'] (m :: ms)
      if tree = [] then .error .missingTree
      else .ok ⟨message, parent, tree⟩
  | line :: rest, tree, parent =>
    let (w, tail) := splitn2C ' ' line
    if w = "tree".data then
      match tail with
      | none => .error .panic
      | some t => parseCommit rest t parent
    else if w = "parent".data then
      match tail with
      | none => .error .panic
      | some p => parseCommit rest tree (some p)
    else .error .panic

/-- `base::get_commit`: fetch the `commit` object and parse it. -/
def get_commit (σ : Files) (oid : List Char) : Except Err Commit :=
  match get_object σ oid .commit with
  | .error e => .error e
  | .ok payload => parseCommit (rustLines payload) [] none

/-- `base::commit`: snapshot the working directory, read HEAD (absent
on the first commit) as the parent, store the formatted record as a
`commit` object, move HEAD to the new OID, return it.  `base.rs` calls
the ref layer through `data::get_ref(Head)` / `data::update_ref(Head, oid)`;
these are modelled by the current `get_head` / `set_head` pair they
correspond to. -/
def commit (sha : List Char → List Char) (σ : Files) (workdir : FsTree)
    (message : List Char) : Except Err (List Char × Files) :=
  match write_tree_recursive sha workdir σ with
  | .error e => .error e
  | .ok (treeOid, σ1) =>
    match get_head σ1 with
    | some (.error e) => .error e
    | some (.ok h) =>
      let contents := "tree ".data ++ treeOid ++ "\nparent ".data ++ h ++ "\n\n".data ++ message
      let (oid, σ2) := hash_object sha σ1 contents .commit
      match set_head σ2 oid with
      | .error e => .error e
      | .ok σ3 => .ok (oid, σ3)
    | none =>
      let contents := "tree ".data ++ treeOid ++ "\n\n".data ++ message
      let (oid, σ2) := hash_object sha σ1 contents .commit
      match set_head σ2 oid with
      | .error e => .error e
      | .ok σ3 => .ok (oid, σ3)

/-! ### Derived descriptions of the write-side effects

These functions compute, directly over an `FsTree`, the entry triples,
the serialized payloads, the OIDs, and the exact sequence of object
writes that `writeEntries` performs — the proofs below show
`writeEntries` equal to them. -/

/-- OID of a file's blob object. -/
def blobOid (sha : List Char → List Char) (c : List Char) : List Char :=
  sha (tagged .blob c)

/-- The `blob` entry-type word. -/
def tBlob : List Char := "blob".data

/-- The `tree` entry-type word. -/
def tTree : List Char := "tree".data

/-- The entry triples `write_tree_recursive` collects for one
directory, computed without the store. -/
def entsOf (sha : List Char → List Char) : FsTree → List TreeEnt
  | .nil => []
  | .file n c r =>
    if is_ignored n then entsOf sha r
    else (tBlob, blobOid sha c, n) :: entsOf sha r
  | .dir n sub r =>
    if is_ignored n then entsOf sha r
    else (tTree, sha (tagged .tree (serializeEnts (entsOf sha sub))), n) :: entsOf sha r
  | .other _ r => entsOf sha r

/-- Serialized tree payload of a directory. -/
def dirPayload (sha : List Char → List Char) (d : FsTree) : List Char :=
  serializeEnts (entsOf sha d)

/-- OID of a directory's tree object. -/
def dirOid (sha : List Char → List Char) (d : FsTree) : List Char :=
  sha (tagged .tree (dirPayload sha d))

/-- The object writes `writeEntries` performs, in write order. -/
def writesOf (sha : List Char → List Char) : FsTree → Files
  | .nil => []
  | .file n c r =>
    if is_ignored n then writesOf sha r
    else (objPath (blobOid sha c), tagged .blob c) :: writesOf sha r
  | .dir n sub r =>
    if is_ignored n then writesOf sha r
    else
      (writesOf sha sub ++ [(objPath (dirOid sha sub), tagged .tree (dirPayload sha sub))])
        ++ writesOf sha r
  | .other n r =>
    if is_ignored n then writesOf sha r else []


/-- All writes of a full `write_tree_recursive` call, the root tree
object included. -/
def rootWrites (sha : List Char → List Char) (d : FsTree) : Files :=
  writesOf sha d ++ [(objPath (dirOid sha d), tagged .tree (dirPayload sha d))]

/-- The non-ignored regular files of a directory, as
`(relative path, contents)` pairs in enumeration order. -/
def filesOf (base : RPath) : FsTree → List (RPath × List Char)
  | .nil => []
  | .file n c r =>
    if is_ignored n then filesOf base r else (base ++ [n], c) :: filesOf base r
  | .dir n sub r =>
    if is_ignored n then filesOf base r
    else filesOf (base ++ [n]) sub ++ filesOf base r
  | .other _ r => filesOf base r

/-- Nesting depth of subdirectories (bounds the `get_tree` fuel). -/
def depthT : FsTree → Nat
  | .nil => 0
  | .file _ _ r => depthT r
  | .dir _ sub r => max (depthT sub + 1) (depthT r)
  | .other _ r => depthT r

/-- No non-ignored entry anywhere is of the `other` kind (the
snapshot succeeds exactly on such directories). -/
def Clean : FsTree → Bool
  | .nil => true
  | .file _ _ r => Clean r
  | .dir n sub r => (is_ignored n || Clean sub) && Clean r
  | .other n r => is_ignored n && Clean r

/-- A name is safe for the newline-joined tree payload: it contains no
newline and does not end in a carriage return (which `str::lines()`
would strip from a non-final payload line). -/
def nameOk (n : List Char) : Bool :=
  !n.contains '\n' && !(n.getLast? == some '\r')

/-- Every non-ignored entry name anywhere is safe (see `nameOk`). -/
def NamesOk : FsTree → Bool
  | .nil => true
  | .file n _ r => (is_ignored n || nameOk n) && NamesOk r
  | .dir n sub r => (is_ignored n || (nameOk n && NamesOk sub)) && NamesOk r
  | .other _ r => NamesOk r

/-- The digest parameter produces nonempty hex strings (true of the
real lowercase SHA-256 hex digest). -/
def ShaHex (sha : List Char → List Char) : Prop :=
  ∀ x, sha x ≠ [] ∧ is_hex (sha x) = true

/-! ### A concrete digest for witnesses

`hexEnc` is a computable, injective function into nonempty lowercase
hex strings: each character becomes six hex digits of its code point,
after a fixed leading `a`.  It stands in for SHA-256 when the theorems'
digest hypotheses must be discharged on concrete repositories. -/

/-- The sixteen hex digits. -/
def hexDigit (n : Nat) : Char :=
  match n with
  | 0 => '0' | 1 => '1' | 2 => '2' | 3 => '3' | 4 => '4'
  | 5 => '5' | 6 => '6' | 7 => '7' | 8 => '8' | 9 => '9'
  | 10 => 'a' | 11 => 'b' | 12 => 'c' | 13 => 'd' | 14 => 'e'
  | _ => 'f'

/-- Numeric value of a hex digit (inverse of `hexDigit` below 16). -/
def hexVal (c : Char) : Nat :=
  match c with
  | '0' => 0 | '1' => 1 | '2' => 2 | '3' => 3 | '4' => 4
  | '5' => 5 | '6' => 6 | '7' => 7 | '8' => 8 | '9' => 9
  | 'a' => 10 | 'b' => 11 | 'c' => 12 | 'd' => 13 | 'e' => 14
  | _ => 15

/-- Six-hex-digit encoding of one character's code point. -/
def charHex6 (c : Char) : List Char :=
  [hexDigit (c.toNat / 1048576 % 16), hexDigit (c.toNat / 65536 % 16),
   hexDigit (c.toNat / 4096 % 16), hexDigit (c.toNat / 256 % 16),
   hexDigit (c.toNat / 16 % 16), hexDigit (c.toNat % 16)]

/-- Injective hex-string digest used to instantiate `sha` in
witnesses. -/
def hexEnc (x : List Char) : List Char := 'a' :: x.flatMap charHex6

/-! ### Concrete repositories and extraction helpers for witnesses -/

/-- Extract the success value of an `Except`, with a default. -/
def exOk {α : Type} (e : Except Err α) (d : α) : α :=
  match e with
  | .ok v => v
  | .error _ => d

/-- Header block of a commit payload: the lines before the first blank
line. -/
def headerOf (payload : List Char) : List (List Char) :=
  (rustLines payload).takeWhile (· ≠ [])

/-- The lines of a commit payload from the first blank line on. -/
def afterHeader (payload : List Char) : List (List Char) :=
  (rustLines payload).dropWhile (· ≠ [])

/-- A one-file directory used to instantiate the snapshot/restore
round trip. -/
def c1wDir : FsTree := .file "a".data "x".data .nil

/-- A working directory containing the repository metadata directory. -/
def c1wCwd : FsTree := .dir ".ugit".data .nil .nil

/-- Result of snapshotting `c1wDir` into an empty store. -/
def c1wRes : List Char × Files := exOk (write_tree_recursive hexEnc c1wDir []) ([], [])

/-- A directory whose single file name contains a newline. -/
def c1xDir : FsTree := .file ('a' :: '\n' :: 'b' :: []) [] .nil

/-- Result of snapshotting `c1xDir` into an empty store. -/
def c1xRes : List Char × Files := exOk (write_tree_recursive hexEnc c1xDir []) ([], [])

/-- A commit payload stored as a raw object for the locate probes. -/
def c3xPayload : List Char := "tree deadbeef\n\nmsg".data

/-- A name that is also the OID of the stored object below. -/
def c3xName : List Char := "abc123".data

/-- A store holding one object file whose OID is `c3xName`. -/
def c3xS : Files := [(objPath c3xName, tagged .commit c3xPayload)]

/-- A store in which the name `v1` is both a tag and a branch. -/
def c4wS : Files := [(tagPath "v1".data, "aa".data), (headsPath "v1".data, "bb".data)]

/-- Location of the ref at the end of the two-ref chain. -/
def c5B : List Char := headsPath "b".data

/-- The commit OID held by the final ref of the chain. -/
def c5C : List Char := "c0ffee".data

/-- HEAD points symbolically at the branch `b`, which holds `c5C`. -/
def c5S : Files := [(headPath, refMarker ++ c5B), (c5B, c5C)]

/-- A constant digest stub: the commit-chain theorem needs only
nonempty hex output from the digest, not injectivity, so its witness
can run on this tiny function. -/
def shaAB : List Char → List Char := fun _ => ['a', 'b']

/-- Result of the first of two consecutive commits in an empty
repository with an empty working directory. -/
def c6r1 : List Char × Files := exOk (commit shaAB [] .nil "a".data) ([], [])

/-- Result of the second of the two consecutive commits. -/
def c6r2 : List Char × Files := exOk (commit shaAB c6r1.2 .nil "b".data) ([], [])

/-- A working directory with no `.ugit` repository in it. -/
def c7wCwd : FsTree := .file "a".data "x".data .nil

/-- A store holding one blob-tagged object. -/
def c8wS : Files := [(objPath "aa".data, tagged .blob "x".data)]

/-- A branch-ref write whose value names the blob object of `c8wS`. -/
def c8wRv : RefValue := ⟨false, some "aa".data, headsPath "b".data⟩

/-- HEAD is a symbolic ref whose target file does not exist. -/
def c9wS : Files := [(headPath, refMarker ++ headsPath "b".data)]

/-- A store with a commit object whose header has an unknown word. -/
def c10wS : Files := [(objPath "aa".data, tagged .commit "foo bar\n\nmsg".data)]

/-! The theorems.  General lemmas about the embedded operations come
first, then, per claim, the claim theorem with its witness or
counterexample. -/

theorem splitn2C_not_mem (c : Char) (xs : List Char) (h : c ∉ xs) :
    splitn2C c xs = (xs, none) := by
  induction xs with
  | nil => rfl
  | cons x rest ih =>
    have hx : ¬x = c := fun he => h (he ▸ List.mem_cons_self x rest)
    have hr : c ∉ rest := fun hm => h (List.mem_cons_of_mem _ hm)
    simp [splitn2C, hx, ih hr]

theorem splitn2C_append (c : Char) (xs ys : List Char) (h : c ∉ xs) :
    splitn2C c (xs ++ c :: ys) = (xs, some ys) := by
  induction xs with
  | nil => simp [splitn2C]
  | cons x rest ih =>
    have hx : ¬x = c := fun he => h (he ▸ List.mem_cons_self x rest)
    have hr : c ∉ rest := fun hm => h (List.mem_cons_of_mem _ hm)
    simp [splitn2C, hx, ih hr]

theorem splitn3C_two (c : Char) (a b d : List Char) (ha : c ∉ a) (hb : c ∉ b) :
    splitn3C c (a ++ c :: (b ++ c :: d)) = [a, b, d] := by
  simp [splitn3C, splitn2C_append c a _ ha, splitn2C_append c b d hb]

theorem splitn3C_one (c : Char) (a b : List Char) (ha : c ∉ a) (hb : c ∉ b) :
    splitn3C c (a ++ c :: b) = [a, b] := by
  simp [splitn3C, splitn2C_append c a b ha, splitn2C_not_mem c b hb]

theorem splitOnC_not_mem (c : Char) (xs : List Char) (h : c ∉ xs) :
    splitOnC c xs = [xs] := by
  induction xs with
  | nil => rfl
  | cons x rest ih =>
    have hx : ¬x = c := fun he => h (he ▸ List.mem_cons_self x rest)
    have hr : c ∉ rest := fun hm => h (List.mem_cons_of_mem _ hm)
    simp [splitOnC, hx, ih hr]

theorem splitOnC_append (c : Char) (xs ys : List Char) (h : c ∉ xs) :
    splitOnC c (xs ++ c :: ys) = xs :: splitOnC c ys := by
  induction xs with
  | nil => simp [splitOnC]
  | cons x rest ih =>
    have hx : ¬x = c := fun he => h (he ▸ List.mem_cons_self x rest)
    have hr : c ∉ rest := fun hm => h (List.mem_cons_of_mem _ hm)
    simp [splitOnC, hx, ih hr]

theorem splitOnC_ne_nil (c : Char) (xs : List Char) : splitOnC c xs ≠ [] := by
  cases xs with
  | nil => simp [splitOnC]
  | cons x rest =>
    simp only [splitOnC]
    split
    · simp
    · split <;> simp

theorem joinWith_cons (sep : List Char) (x : List Char) (xs : List (List Char))
    (h : xs ≠ []) : joinWith sep (x :: xs) = x ++ sep ++ joinWith sep xs := by
  cases xs with
  | nil => exact absurd rfl h
  | cons y ys => rfl

theorem stripCR_of_ne (l : List Char) (h : l.getLast? ≠ some '\r') :
    stripCR l = l := by
  simp [stripCR, h]

theorem cons_getLast_ne_cr (x : Char) (n : List Char) (hx : x ≠ '\r')
    (hn : n.getLast? ≠ some '\r') : (x :: n).getLast? ≠ some '\r' := by
  cases n with
  | nil => simpa using hx
  | cons y ys =>
    rw [List.getLast?_cons_cons]
    exact hn

theorem append_getLast_ne_cr (a b : List Char) (ha : a.getLast? ≠ some '\r')
    (hb : b.getLast? ≠ some '\r') : (a ++ b).getLast? ≠ some '\r' := by
  rw [List.getLast?_append]
  cases hb' : b.getLast? with
  | none => simpa using ha
  | some v =>
    have hv : (some v).or a.getLast? = some v := rfl
    rw [hv, ← hb']
    exact hb

theorem rustLines_join (ls : List (List Char))
    (h : ∀ l ∈ ls, '\n' ∉ l ∧ l ≠ [] ∧ stripCR l = l) :
    rustLines (joinWith ['\n'] ls) = ls := by
  have key : ls ≠ [] → splitOnC '\n' (joinWith ['\n'] ls) = ls := by
    induction ls with
    | nil => intro hn; exact absurd rfl hn
    | cons x xs ih =>
      intro _
      cases xs with
      | nil =>
        have hx := h x (List.mem_cons_self x [])
        simpa [joinWith] using splitOnC_not_mem '\n' x hx.1
      | cons y ys =>
        have hx := h x (List.mem_cons_self x _)
        have hrest : ∀ l ∈ y :: ys, '\n' ∉ l ∧ l ≠ [] ∧ stripCR l = l := fun l hl =>
          h l (List.mem_cons_of_mem _ hl)
        have ihr := ih hrest (by simp)
        rw [joinWith_cons _ _ _ (by simp)]
        have : x ++ ['\n'] ++ joinWith ['\n'] (y :: ys)
            = x ++ '\n' :: joinWith ['\n'] (y :: ys) := by simp
        rw [this, splitOnC_append '\n' x _ hx.1, ihr]
  cases hls : ls with
  | nil => rfl
  | cons x xs =>
    rw [rustLines]
    have hsplit := key (by simp [hls])
    rw [hls] at hsplit
    rw [hsplit]
    have hlast : (x :: xs).getLast? ≠ some [] := by
      intro hcontra
      have hmem : ([] : List Char) ∈ x :: xs := List.mem_of_getLast?_eq_some hcontra
      exact (h [] (hls ▸ hmem)).2.1 rfl
    rw [if_neg hlast]
    have hstrip : ((x :: xs).dropLast).map stripCR = (x :: xs).dropLast := by
      have hall : ∀ l ∈ (x :: xs).dropLast, stripCR l = l := fun l hl =>
        (h l (hls ▸ (List.dropLast_sublist (x :: xs)).subset hl)).2.2
      calc ((x :: xs).dropLast).map stripCR
          = ((x :: xs).dropLast).map id := List.map_congr_left hall
        _ = (x :: xs).dropLast := List.map_id _
    rw [hstrip]
    rw [List.getLast?_eq_getLast (x :: xs) (by simp)]
    simp [List.dropLast_concat_getLast]

theorem rustLines_nil : rustLines [] = [] := rfl

theorem nulC_not_mem_tag (t : ObjectType) : nulC ∉ tagChars t := by
  cases t <;> decide

theorem splitn2C_tagged (t : ObjectType) (p : List Char) :
    splitn2C nulC (tagged t p) = (tagChars t, some p) :=
  splitn2C_append nulC (tagChars t) p (nulC_not_mem_tag t)

theorem get_object_of_lookup (σ : Files) (oid : List Char) (t : ObjectType)
    (p : List Char) (h : fsLookup σ (objPath oid) = some (tagged t p)) :
    get_object σ oid t = .ok p := by
  simp [get_object, h, splitn2C_tagged]

theorem hex_char_ne (c : Char) (h : is_hex_char c = true) :
    c ≠ '\n' ∧ c ≠ ' ' ∧ c ≠ nulC ∧ c ≠ 'r' ∧ c ≠ '\r' := by
  simp only [is_hex_char, decide_eq_true_eq] at h
  have hval : ('0' ≤ c ∧ c ≤ '9') ∨ ('a' ≤ c ∧ c ≤ 'f') := by
    rcases h with h | h
    · exact Or.inl h
    · exact Or.inr h
  rcases hval with ⟨h1, h2⟩ | ⟨h1, h2⟩ <;>
    refine ⟨?_, ?_, ?_, ?_, ?_⟩ <;>
    · intro he
      subst he
      revert h1 h2
      decide

theorem hex_not_mem (v : List Char) (h : is_hex v = true) :
    '\n' ∉ v ∧ ' ' ∉ v ∧ nulC ∉ v := by
  simp only [is_hex, List.all_eq_true] at h
  refine ⟨fun hm => ?_, fun hm => ?_, fun hm => ?_⟩
  · exact absurd rfl (hex_char_ne _ (h _ hm)).1
  · exact absurd rfl (hex_char_ne _ (h _ hm)).2.1
  · exact absurd rfl (hex_char_ne _ (h _ hm)).2.2.1

theorem hex_getLast_ne_cr (v : List Char) (h : is_hex v = true) :
    v.getLast? ≠ some '\r' := by
  intro hc
  have hmem : '\r' ∈ v := List.mem_of_getLast?_eq_some hc
  simp only [is_hex, List.all_eq_true] at h
  exact (hex_char_ne _ (h _ hmem)).2.2.2.2 rfl

theorem hex_not_marker (v : List Char) (hv : is_hex v = true) (hne : v ≠ []) :
    refMarker.isPrefixOf v = false := by
  cases v with
  | nil => exact absurd rfl hne
  | cons c rest =>
    simp only [is_hex, List.all_cons, Bool.and_eq_true] at hv
    have hc := (hex_char_ne c hv.1).2.2.2.1
    show List.isPrefixOf ('r' :: _) (c :: rest) = false
    simp [List.isPrefixOf]
    intro he
    exact absurd he.symm hc

theorem is_hex_tagged (t : ObjectType) (p : List Char) :
    is_hex (tagged t p) = false := by
  cases t <;>
    simp [tagged, tagChars, is_hex, List.all_append, is_hex_char, nulC]

theorem fsLookup_write_self (σ : Files) (p c : List Char) :
    fsLookup (fsWrite σ p c) p = some c := by
  simp [fsWrite, fsLookup]

theorem fsLookup_write_ne (σ : Files) (p q c : List Char) (h : p ≠ q) :
    fsLookup (fsWrite σ p c) q = fsLookup σ q := by
  simp [fsWrite, fsLookup, h]

theorem objPath_inj {a b : List Char} (h : objPath a = objPath b) : a = b :=
  List.append_cancel_left h

theorem headPath_ne_objPath (x : List Char) : headPath ≠ objPath x := by
  intro h
  have := congrArg List.length h
  simp [headPath, objPath] at this

theorem writeEntries_clean (sha : List Char → List Char) :
    ∀ (d : FsTree) (σ : Files), Clean d = true →
    writeEntries sha d σ = .ok (entsOf sha d, (writesOf sha d).reverse ++ σ) := by
  intro d
  induction d with
  | nil => intro σ _; simp [writeEntries, entsOf, writesOf]
  | file n c r ih =>
    intro σ hc
    simp only [Clean] at hc
    cases hn : is_ignored n with
    | true => simp [writeEntries, entsOf, writesOf, hn, ih σ hc]
    | false =>
      simp only [writeEntries, entsOf, writesOf, hn, Bool.false_eq_true, if_false,
        hash_object]
      rw [ih _ hc]
      simp [fsWrite, blobOid, tagged, tBlob]
  | dir n sub r ihsub ihr =>
    intro σ hc
    simp only [Clean, Bool.and_eq_true, Bool.or_eq_true] at hc
    cases hn : is_ignored n with
    | true => simp [writeEntries, entsOf, writesOf, hn, ihr σ hc.2]
    | false =>
      have hsub : Clean sub = true := by
        rcases hc.1 with h | h
        · rw [hn] at h; exact absurd h (by simp)
        · exact h
      simp only [writeEntries, entsOf, writesOf, hn, Bool.false_eq_true, if_false]
      rw [ihsub σ hsub]
      simp only [hash_object]
      rw [ihr _ hc.2]
      simp [fsWrite, dirOid, dirPayload, tagged, List.reverse_append, tTree]
  | other n r ihr =>
    intro σ hc
    simp only [Clean, Bool.and_eq_true] at hc
    simp [writeEntries, entsOf, writesOf, hc.1, ihr σ hc.2]

theorem write_tree_clean (sha : List Char → List Char) (d : FsTree) (σ : Files)
    (hc : Clean d = true) :
    write_tree_recursive sha d σ
      = .ok (dirOid sha d, (rootWrites sha d).reverse ++ σ) := by
  simp only [write_tree_recursive]
  rw [writeEntries_clean sha d σ hc]
  simp [hash_object, fsWrite, dirOid, dirPayload, tagged, rootWrites,
    List.reverse_append]

theorem writeEntries_pres (sha : List Char → List Char) :
    ∀ (d : FsTree) (σ : Files) (ents : List TreeEnt) (σ' : Files),
    writeEntries sha d σ = .ok (ents, σ') →
    ∀ p, (∀ x, p ≠ objPath x) → fsLookup σ' p = fsLookup σ p := by
  intro d
  induction d with
  | nil =>
    intro σ ents σ' h p _
    simp only [writeEntries, Except.ok.injEq, Prod.mk.injEq] at h
    rw [h.2]
  | file n c r ih =>
    intro σ ents σ' h p hp
    simp only [writeEntries] at h
    cases hn : is_ignored n with
    | true => rw [hn] at h; simp at h; exact ih σ ents σ' h p hp
    | false =>
      rw [hn] at h
      simp only [Bool.false_eq_true, if_false, hash_object] at h
      rcases he : writeEntries sha r
          (fsWrite σ (objPath (sha (tagged ObjectType.blob c))) (tagged ObjectType.blob c))
        with _ | ⟨ents2, σ2⟩ <;> rw [he] at h
      · exact absurd h (by simp)
      · simp only [Except.ok.injEq, Prod.mk.injEq] at h
        rw [← h.2]
        rw [ih _ _ _ he p hp]
        exact fsLookup_write_ne _ _ _ _ (fun hx => absurd hx.symm (hp _))
  | dir n sub r ihsub ihr =>
    intro σ ents σ' h p hp
    simp only [writeEntries] at h
    cases hn : is_ignored n with
    | true => rw [hn] at h; simp at h; exact ihr σ ents σ' h p hp
    | false =>
      rw [hn] at h
      simp only [Bool.false_eq_true, if_false] at h
      rcases hs : writeEntries sha sub σ with _ | ⟨subEnts, σ1⟩ <;> rw [hs] at h
      · exact absurd h (by simp)
      · simp only [hash_object] at h
        rcases he : writeEntries sha r
            (fsWrite σ1 (objPath (sha (tagged ObjectType.tree (serializeEnts subEnts))))
              (tagged ObjectType.tree (serializeEnts subEnts)))
          with _ | ⟨ents2, σ3⟩ <;> rw [he] at h
        · exact absurd h (by simp)
        · simp only [Except.ok.injEq, Prod.mk.injEq] at h
          rw [← h.2]
          rw [ihr _ _ _ he p hp]
          rw [fsLookup_write_ne _ _ _ _ (fun hx => absurd hx.symm (hp _))]
          exact ihsub _ _ _ hs p hp
  | other n r ihr =>
    intro σ ents σ' h p hp
    simp only [writeEntries] at h
    cases hn : is_ignored n with
    | true => rw [hn] at h; simp at h; exact ihr σ ents σ' h p hp
    | false => rw [hn] at h; exact absurd h (by simp)

theorem write_tree_pres (sha : List Char → List Char) (d : FsTree) (σ : Files)
    (o : List Char) (σ' : Files) (h : write_tree_recursive sha d σ = .ok (o, σ'))
    (p : List Char) (hp : ∀ x, p ≠ objPath x) :
    fsLookup σ' p = fsLookup σ p := by
  simp only [write_tree_recursive] at h
  rcases he : writeEntries sha d σ with _ | ⟨ents, σ1⟩ <;> rw [he] at h
  · exact absurd h (by simp)
  · simp only [hash_object, Except.ok.injEq, Prod.mk.injEq] at h
    rw [← h.2]
    rw [fsLookup_write_ne _ _ _ _ (fun hx => absurd hx.symm (hp _))]
    exact writeEntries_pres sha d σ ents σ1 he p hp

theorem write_tree_oid_shape (sha : List Char → List Char) (d : FsTree) (σ : Files)
    (o : List Char) (σ' : Files) (h : write_tree_recursive sha d σ = .ok (o, σ')) :
    ∃ y, o = sha y := by
  simp only [write_tree_recursive] at h
  rcases he : writeEntries sha d σ with _ | ⟨ents, σ1⟩ <;> rw [he] at h
  · exact absurd h (by simp)
  · simp only [hash_object, Except.ok.injEq, Prod.mk.injEq] at h
    exact ⟨_, h.1.symm⟩

theorem lookup_wf_append (sha : List Char → List Char)
    (hinj : Function.Injective sha) :
    ∀ (δ σ : Files), (∀ pc ∈ δ, pc.1 = objPath (sha pc.2)) →
    ∀ c : List Char,
      ((objPath (sha c), c) ∈ δ ∨ fsLookup σ (objPath (sha c)) = some c) →
      fsLookup (δ ++ σ) (objPath (sha c)) = some c := by
  intro δ
  induction δ with
  | nil =>
    intro σ _ c h
    rcases h with h | h
    · simp at h
    · simpa using h
  | cons qc δ' ih =>
    intro σ hwf c h
    obtain ⟨q, c'⟩ := qc
    have hq : q = objPath (sha c') := hwf (q, c') (List.mem_cons_self _ _)
    by_cases he : q = objPath (sha c)
    · have hcc : c' = c := by
        apply hinj
        exact objPath_inj (hq.symm.trans he)
      simp [fsLookup, he, hcc]
    · have hh : (objPath (sha c), c) ∈ δ' ∨ fsLookup σ (objPath (sha c)) = some c := by
        rcases h with h | h
        · rcases List.mem_cons.mp h with h | h
          · exact absurd (congrArg Prod.fst h.symm) he
          · exact Or.inl h
        · exact Or.inr h
      simp only [List.cons_append, fsLookup, he, if_false]
      exact ih σ (fun pc hm => hwf pc (List.mem_cons_of_mem _ hm)) c hh

theorem writesOf_wf (sha : List Char → List Char) :
    ∀ d : FsTree, ∀ pc ∈ writesOf sha d, pc.1 = objPath (sha pc.2) := by
  intro d
  induction d with
  | nil => intro pc hm; simp [writesOf] at hm
  | file n c r ih =>
    intro pc hm
    simp only [writesOf] at hm
    cases hn : is_ignored n <;> rw [hn] at hm
    · simp only [Bool.false_eq_true, if_false, List.mem_cons] at hm
      rcases hm with hm | hm
      · rw [hm]; rfl
      · exact ih pc hm
    · exact ih pc hm
  | dir n sub r ihsub ihr =>
    intro pc hm
    simp only [writesOf] at hm
    cases hn : is_ignored n <;> rw [hn] at hm
    · simp only [Bool.false_eq_true, if_false, List.mem_append, List.mem_cons,
        List.not_mem_nil, or_false] at hm
      rcases hm with (hm | hm) | hm
      · exact ihsub pc hm
      · rw [hm]; rfl
      · exact ihr pc hm
    · exact ihr pc hm
  | other n r ihr =>
    intro pc hm
    simp only [writesOf] at hm
    cases hn : is_ignored n <;> rw [hn] at hm
    · simp at hm
    · exact ihr pc hm

theorem rootWrites_wf (sha : List Char → List Char) (d : FsTree) :
    ∀ pc ∈ rootWrites sha d, pc.1 = objPath (sha pc.2) := by
  intro pc hm
  rcases List.mem_append.mp hm with hm | hm
  · exact writesOf_wf sha d pc hm
  · simp only [List.mem_singleton] at hm
    rw [hm]; rfl

theorem rootWrites_stored (sha : List Char → List Char)
    (hinj : Function.Injective sha) (d : FsTree) (σ0 : Files) :
    ∀ pc ∈ rootWrites sha d,
      fsLookup ((rootWrites sha d).reverse ++ σ0) pc.1 = some pc.2 := by
  intro pc hm
  have hwf := rootWrites_wf sha d pc hm
  rw [hwf]
  apply lookup_wf_append sha hinj
  · intro qc hq
    exact rootWrites_wf sha d qc (List.mem_reverse.mp hq)
  · left
    rw [← hwf]
    exact List.mem_reverse.mpr hm

theorem not_contains_nl {n : List Char} (h : n.contains '\n' = false) : '\n' ∉ n := by
  intro hm
  have h' : List.elem '\n' n = true := List.elem_iff.mpr hm
  have h'' : List.elem '\n' n = false := h
  rw [h''] at h'
  exact absurd h' (by decide)

theorem append_cons_getLast_ne_cr (a : List Char) (x : Char) (b : List Char)
    (hx : x ≠ '\r') (hb : b.getLast? ≠ some '\r') :
    (a ++ x :: b).getLast? ≠ some '\r' := by
  rw [List.getLast?_append]
  have hxb := cons_getLast_ne_cr x b hx hb
  cases h' : (x :: b).getLast? with
  | none =>
    have hsome := List.getLast?_isSome.mpr (by simp : (x :: b) ≠ [])
    rw [h'] at hsome
    simp at hsome
  | some v =>
    have hv : (some v).or a.getLast? = some v := rfl
    rw [hv, ← h']
    exact hxb

theorem nameOk_elim {n : List Char} (h : nameOk n = true) :
    '\n' ∉ n ∧ n.getLast? ≠ some '\r' := by
  simp only [nameOk, Bool.and_eq_true] at h
  refine ⟨not_contains_nl (by simpa using h.1), fun hc => ?_⟩
  rw [hc] at h
  exact absurd h.2 (by decide)

theorem entLine_eq (t oid n : List Char) :
    entLine (t, oid, n) = t ++ ' ' :: (oid ++ ' ' :: n) := by
  simp [entLine]

theorem entLine_facts (t oid n : List Char) (ht : '\n' ∉ t)
    (ho : '\n' ∉ oid) (hn : '\n' ∉ n) (hcr : n.getLast? ≠ some '\r') :
    '\n' ∉ entLine (t, oid, n) ∧ entLine (t, oid, n) ≠ [] ∧
      stripCR (entLine (t, oid, n)) = entLine (t, oid, n) := by
  refine ⟨?_, ?_, ?_⟩
  · intro hm
    simp only [entLine] at hm
    rcases List.mem_append.mp hm with hm | hm
    · rcases List.mem_append.mp hm with hm | hm
      · exact ht hm
      · rcases List.mem_cons.mp hm with hm | hm
        · exact absurd hm (by decide)
        · exact ho hm
    · rcases List.mem_cons.mp hm with hm | hm
      · exact absurd hm (by decide)
      · exact hn hm
  · simp [entLine]
  · rw [entLine_eq]
    exact stripCR_of_ne _
      (append_cons_getLast_ne_cr t ' ' (oid ++ ' ' :: n) (by decide)
        (append_cons_getLast_ne_cr oid ' ' n (by decide) hcr))

theorem entsOf_lines (sha : List Char → List Char) (hhex : ShaHex sha) :
    ∀ d : FsTree, NamesOk d = true →
    ∀ l ∈ (entsOf sha d).map entLine, '\n' ∉ l ∧ l ≠ [] ∧ stripCR l = l := by
  intro d
  induction d with
  | nil => intro _ l hl; simp [entsOf] at hl
  | file n c r ih =>
    intro hok l hl
    simp only [NamesOk, Bool.and_eq_true, Bool.or_eq_true] at hok
    simp only [entsOf] at hl
    cases hn : is_ignored n <;> rw [hn] at hl
    · simp only [Bool.false_eq_true, if_false, List.map_cons, List.mem_cons] at hl
      rcases hl with hl | hl
      · subst hl
        have hname : '\n' ∉ n ∧ n.getLast? ≠ some '\r' := by
          rcases hok.1 with h | h
          · rw [hn] at h; exact absurd h (by simp)
          · exact nameOk_elim h
        exact entLine_facts _ _ _ (by decide)
          (hex_not_mem _ (hhex (tagged .blob c)).2).1 hname.1 hname.2
      · exact ih hok.2 l hl
    · exact ih hok.2 l hl
  | dir n sub r ihsub ihr =>
    intro hok l hl
    simp only [NamesOk, Bool.and_eq_true, Bool.or_eq_true] at hok
    simp only [entsOf] at hl
    cases hn : is_ignored n <;> rw [hn] at hl
    · simp only [Bool.false_eq_true, if_false, List.map_cons, List.mem_cons] at hl
      rcases hl with hl | hl
      · subst hl
        have hside : nameOk n = true ∧ NamesOk sub = true := by
          rcases hok.1 with h | h
          · rw [hn] at h; exact absurd h (by simp)
          · simpa using h
        have hname := nameOk_elim hside.1
        exact entLine_facts _ _ _ (by decide)
          (hex_not_mem _ (hhex (tagged .tree (serializeEnts (entsOf sha sub)))).2).1
          hname.1 hname.2
      · exact ihr hok.2 l hl
    · exact ihr hok.2 l hl
  | other n r ihr =>
    intro hok l hl
    simp only [NamesOk] at hok
    simp only [entsOf] at hl
    exact ihr hok l hl

theorem getTreeLines_blob (expand : List Char → RPath → Except Err (List (RPath × List Char)))
    (oid n : List Char) (rest : List (List Char)) (base : RPath) (ho : ' ' ∉ oid) :
    getTreeLinesWith expand (entLine (tBlob, oid, n) :: rest) base
      = match getTreeLinesWith expand rest base with
        | .error e => .error e
        | .ok acc => .ok ((base ++ [n], oid) :: acc) := by
  rw [entLine_eq]
  simp only [getTreeLinesWith]
  rw [splitn3C_two ' ' tBlob oid n (by decide) ho]
  simp [tBlob]

theorem getTreeLines_tree (expand : List Char → RPath → Except Err (List (RPath × List Char)))
    (oid n : List Char) (rest : List (List Char)) (base : RPath) (ho : ' ' ∉ oid) :
    getTreeLinesWith expand (entLine (tTree, oid, n) :: rest) base
      = match expand oid (base ++ [n]) with
        | .error e => .error e
        | .ok sub =>
          match getTreeLinesWith expand rest base with
          | .error e => .error e
          | .ok acc => .ok (sub ++ acc) := by
  rw [entLine_eq]
  simp only [getTreeLinesWith]
  rw [splitn3C_two ' ' tTree oid n (by decide) ho]
  simp [tTree, show ¬(("tree".data : List Char) = "blob".data) from by decide]

theorem get_tree_sound (sha : List Char → List Char) (σf : Files) (hhex : ShaHex sha) :
    ∀ fuel : Nat, ∀ d : FsTree, ∀ base : RPath,
    Clean d = true → NamesOk d = true → depthT d < fuel →
    (∀ pc ∈ rootWrites sha d, fsLookup σf pc.1 = some pc.2) →
    get_tree σf fuel (dirOid sha d) base
      = .ok ((filesOf base d).map fun pc => (pc.1, blobOid sha pc.2)) := by
  intro fuel
  induction fuel with
  | zero => intro d base _ _ hdep _; omega
  | succ f ihf =>
    intro d base hc hn hdep hst
    have hroot : fsLookup σf (objPath (dirOid sha d))
        = some (tagged .tree (dirPayload sha d)) :=
      hst (objPath (dirOid sha d), tagged .tree (dirPayload sha d))
        (List.mem_append.mpr (Or.inr (List.mem_singleton.mpr rfl)))
    have hlines : rustLines (dirPayload sha d) = (entsOf sha d).map entLine := by
      have := rustLines_join ((entsOf sha d).map entLine) (entsOf_lines sha hhex d hn)
      simpa [dirPayload, serializeEnts] using this
    simp only [get_tree]
    rw [get_object_of_lookup _ _ _ _ hroot]
    show getTreeLinesWith (get_tree σf f) (rustLines (dirPayload sha d)) base = _
    rw [hlines]
    have hstW : ∀ pc ∈ writesOf sha d, fsLookup σf pc.1 = some pc.2 :=
      fun pc hm => hst pc (List.mem_append.mpr (Or.inl hm))
    have hdep' : depthT d ≤ f := Nat.lt_succ_iff.mp hdep
    clear hroot hlines hst hdep
    revert hc hn hstW hdep'
    induction d generalizing base with
    | nil =>
      intro _ _ _ _
      simp [entsOf, filesOf, getTreeLinesWith]
    | file n c r ihr =>
      intro hc hn hstW hdep'
      simp only [Clean] at hc
      simp only [NamesOk, Bool.and_eq_true] at hn
      have hdep2 : depthT r ≤ f := hdep'
      cases hig : is_ignored n with
      | true =>
        simp only [entsOf, filesOf, hig, if_true]
        exact ihr base hc hn.2 (by
          intro pc hm
          apply hstW
          simpa [writesOf, hig] using hm) hdep2
      | false =>
        simp only [entsOf, filesOf, hig, Bool.false_eq_true, if_false, List.map_cons]
        rw [getTreeLines_blob (get_tree σf f) (blobOid sha c) n
          ((entsOf sha r).map entLine) base
          (hex_not_mem _ (hhex (tagged .blob c)).2).2.1]
        rw [ihr base hc hn.2 (by
          intro pc hm
          apply hstW
          simp only [writesOf, hig, Bool.false_eq_true, if_false]
          exact List.mem_cons_of_mem _ hm) hdep2]
    | dir n sub r ihsub ihr =>
      intro hc hn hstW hdep'
      simp only [Clean, Bool.and_eq_true, Bool.or_eq_true] at hc
      simp only [NamesOk, Bool.and_eq_true, Bool.or_eq_true] at hn
      have hdep2 : max (depthT sub + 1) (depthT r) ≤ f := hdep'
      cases hig : is_ignored n with
      | true =>
        simp only [entsOf, filesOf, hig, if_true]
        exact ihr base hc.2 hn.2 (by
          intro pc hm
          apply hstW
          simpa [writesOf, hig] using hm) (by omega)
      | false =>
        have hcsub : Clean sub = true := by
          rcases hc.1 with h | h
          · rw [hig] at h; exact absurd h (by simp)
          · exact h
        have hnsub : nameOk n = true ∧ NamesOk sub = true := by
          rcases hn.1 with h | h
          · rw [hig] at h; exact absurd h (by simp)
          · simpa using h
        simp only [entsOf, filesOf, hig, Bool.false_eq_true, if_false, List.map_cons]
        rw [show (sha (tagged ObjectType.tree (serializeEnts (entsOf sha sub))))
            = dirOid sha sub from rfl]
        rw [getTreeLines_tree (get_tree σf f) (dirOid sha sub) n
          ((entsOf sha r).map entLine) base
          (hex_not_mem _ (hhex (tagged .tree (dirPayload sha sub))).2).2.1]
        have hsubst : ∀ pc ∈ rootWrites sha sub, fsLookup σf pc.1 = some pc.2 := by
          intro pc hm
          apply hstW
          simp only [writesOf, hig, Bool.false_eq_true, if_false, List.mem_append]
          left
          simpa [rootWrites, dirOid, dirPayload] using hm
        rw [ihf sub (base ++ [n]) hcsub hnsub.2 (by omega) hsubst]
        rw [ihr base hc.2 hn.2 (by
          intro pc hm
          apply hstW
          simp only [writesOf, hig, Bool.false_eq_true, if_false, List.mem_append]
          right
          exact hm) (by omega)]
        simp
    | other n r ihr =>
      intro hc hn hstW hdep'
      simp only [Clean, Bool.and_eq_true] at hc
      simp only [NamesOk] at hn
      have hdep2 : depthT r ≤ f := hdep'
      simp only [entsOf, filesOf]
      exact ihr base hc.2 hn (by
        intro pc hm
        apply hstW
        simpa [writesOf, hc.1] using hm) hdep2

theorem filesOf_blob_mem (sha : List Char → List Char) :
    ∀ (d : FsTree) (base : RPath), Clean d = true →
    ∀ pc ∈ filesOf base d,
      (objPath (blobOid sha pc.2), tagged .blob pc.2) ∈ writesOf sha d := by
  intro d
  induction d with
  | nil => intro base _ pc hm; simp [filesOf] at hm
  | file n c r ihr =>
    intro base hc pc hm
    simp only [Clean] at hc
    simp only [filesOf] at hm
    cases hig : is_ignored n <;> rw [hig] at hm
    · simp only [Bool.false_eq_true, if_false, List.mem_cons] at hm
      simp only [writesOf, hig, Bool.false_eq_true, if_false]
      rcases hm with hm | hm
      · subst hm; exact List.mem_cons_self _ _
      · exact List.mem_cons_of_mem _ (ihr base hc pc hm)
    · simp only [if_true] at hm
      simp only [writesOf, hig, if_true]
      exact ihr base hc pc hm
  | dir n sub r ihsub ihr =>
    intro base hc pc hm
    simp only [Clean, Bool.and_eq_true, Bool.or_eq_true] at hc
    simp only [filesOf] at hm
    cases hig : is_ignored n <;> rw [hig] at hm
    · have hcsub : Clean sub = true := by
        rcases hc.1 with h | h
        · rw [hig] at h; exact absurd h (by simp)
        · exact h
      simp only [Bool.false_eq_true, if_false, List.mem_append] at hm
      simp only [writesOf, hig, Bool.false_eq_true, if_false, List.mem_append]
      rcases hm with hm | hm
      · exact Or.inl (Or.inl (ihsub (base ++ [n]) hcsub pc hm))
      · exact Or.inr (ihr base hc.2 pc hm)
    · simp only [if_true] at hm
      simp only [writesOf, hig, if_true]
      exact ihr base hc.2 pc hm
  | other n r ihr =>
    intro base hc pc hm
    simp only [Clean, Bool.and_eq_true] at hc
    simp only [filesOf] at hm
    simp only [writesOf, hc.1, if_true]
    exact ihr base hc.2 pc hm

theorem writeAll_files (σ : Files) (sha : List Char → List Char) :
    ∀ files : List (RPath × List Char),
    (∀ pc ∈ files, fsLookup σ (objPath (blobOid sha pc.2)) = some (tagged .blob pc.2)) →
    writeAll σ (files.map fun pc => (pc.1, blobOid sha pc.2)) = .ok files := by
  intro files
  induction files with
  | nil => intro _; simp [writeAll]
  | cons pc rest ih =>
    intro h
    obtain ⟨p, c⟩ := pc
    simp only [List.map_cons, writeAll]
    rw [get_object_of_lookup _ _ _ _ (h (p, c) (List.mem_cons_self _ _))]
    rw [ih (fun qc hq => h qc (List.mem_cons_of_mem _ hq))]

theorem read_after_write (sha : List Char → List Char)
    (hinj : Function.Injective sha) (hhex : ShaHex sha)
    (d cwd : FsTree) (σ0 σf : Files) (fuel : Nat) (oid : List Char)
    (hclean : Clean d = true) (hnames : NamesOk d = true)
    (hfuel : depthT d < fuel) (hugit : hasUgit cwd = true)
    (hw : write_tree_recursive sha d σ0 = .ok (oid, σf)) :
    read_tree σf oid cwd fuel = .ok (emptiedDir cwd, filesOf [] d) := by
  have hw' := write_tree_clean sha d σ0 hclean
  rw [hw] at hw'
  simp only [Except.ok.injEq, Prod.mk.injEq] at hw'
  obtain ⟨hoid, hσf⟩ := hw'
  subst hoid
  subst hσf
  have hst := rootWrites_stored sha hinj d σ0
  simp only [read_tree, empty_current_directory, hugit, if_true]
  rw [get_tree_sound sha _ hhex fuel d [] hclean hnames hfuel hst]
  show (match writeAll (List.reverse (rootWrites sha d) ++ σ0)
          ((filesOf [] d).map fun pc => (pc.1, blobOid sha pc.2)) with
        | Except.error e => Except.error e
        | Except.ok files =>
          (Except.ok (emptiedDir cwd, files) : Except Err (FsTree × List (RPath × List Char))))
      = Except.ok (emptiedDir cwd, filesOf [] d)
  rw [writeAll_files _ sha (filesOf [] d) (fun pc hm => by
    have hmem := filesOf_blob_mem sha d [] hclean pc hm
    exact hst (objPath (blobOid sha pc.2), tagged .blob pc.2)
      (List.mem_append.mpr (Or.inl hmem)))]

theorem hexDigit_hex (n : Nat) : is_hex_char (hexDigit n) = true := by
  unfold hexDigit
  split <;> decide

theorem hexVal_hexDigit (n : Nat) (h : n < 16) : hexVal (hexDigit n) = n := by
  interval_cases n <;> rfl

theorem char_toNat_lt (c : Char) : c.toNat < 1114112 := by
  rcases c.valid with h | ⟨_, h2⟩
  · exact Nat.lt_trans h (by norm_num)
  · exact h2

theorem charHex6_inj : Function.Injective charHex6 := by
  intro a b h
  simp only [charHex6, List.cons.injEq, and_true] at h
  obtain ⟨h1, h2, h3, h4, h5, h6⟩ := h
  have q1 : a.toNat / 1048576 % 16 = b.toNat / 1048576 % 16 := by
    rw [← hexVal_hexDigit (a.toNat / 1048576 % 16) (Nat.mod_lt _ (by norm_num)),
        ← hexVal_hexDigit (b.toNat / 1048576 % 16) (Nat.mod_lt _ (by norm_num))]
    exact congrArg hexVal h1
  have q2 : a.toNat / 65536 % 16 = b.toNat / 65536 % 16 := by
    rw [← hexVal_hexDigit (a.toNat / 65536 % 16) (Nat.mod_lt _ (by norm_num)),
        ← hexVal_hexDigit (b.toNat / 65536 % 16) (Nat.mod_lt _ (by norm_num))]
    exact congrArg hexVal h2
  have q3 : a.toNat / 4096 % 16 = b.toNat / 4096 % 16 := by
    rw [← hexVal_hexDigit (a.toNat / 4096 % 16) (Nat.mod_lt _ (by norm_num)),
        ← hexVal_hexDigit (b.toNat / 4096 % 16) (Nat.mod_lt _ (by norm_num))]
    exact congrArg hexVal h3
  have q4 : a.toNat / 256 % 16 = b.toNat / 256 % 16 := by
    rw [← hexVal_hexDigit (a.toNat / 256 % 16) (Nat.mod_lt _ (by norm_num)),
        ← hexVal_hexDigit (b.toNat / 256 % 16) (Nat.mod_lt _ (by norm_num))]
    exact congrArg hexVal h4
  have q5 : a.toNat / 16 % 16 = b.toNat / 16 % 16 := by
    rw [← hexVal_hexDigit (a.toNat / 16 % 16) (Nat.mod_lt _ (by norm_num)),
        ← hexVal_hexDigit (b.toNat / 16 % 16) (Nat.mod_lt _ (by norm_num))]
    exact congrArg hexVal h5
  have q6 : a.toNat % 16 = b.toNat % 16 := by
    rw [← hexVal_hexDigit (a.toNat % 16) (Nat.mod_lt _ (by norm_num)),
        ← hexVal_hexDigit (b.toNat % 16) (Nat.mod_lt _ (by norm_num))]
    exact congrArg hexVal h6
  have ha := char_toNat_lt a
  have hb := char_toNat_lt b
  have heq : a.toNat = b.toNat := by omega
  calc a = Char.ofNat a.toNat := (Char.ofNat_toNat a).symm
    _ = Char.ofNat b.toNat := by rw [heq]
    _ = b := Char.ofNat_toNat b

theorem charHex6_len (c : Char) : (charHex6 c).length = 6 := by simp [charHex6]

theorem flatMap_charHex6_inj :
    ∀ x y : List Char, x.flatMap charHex6 = y.flatMap charHex6 → x = y := by
  intro x
  induction x with
  | nil =>
    intro y h
    cases y with
    | nil => rfl
    | cons b ys =>
      exfalso
      have := congrArg List.length h
      simp [charHex6] at this
  | cons a xs ih =>
    intro y h
    cases y with
    | nil =>
      exfalso
      have := congrArg List.length h
      simp [charHex6] at this
    | cons b ys =>
      simp only [List.flatMap_cons] at h
      obtain ⟨h1, h2⟩ := List.append_inj h (by rw [charHex6_len, charHex6_len])
      rw [charHex6_inj h1, ih ys h2]

theorem hexEnc_inj : Function.Injective hexEnc := by
  intro x y h
  simp only [hexEnc, List.cons.injEq, true_and] at h
  exact flatMap_charHex6_inj x y h

theorem hexEnc_hex : ShaHex hexEnc := by
  intro x
  constructor
  · simp [hexEnc]
  · simp only [hexEnc, is_hex, List.all_cons, Bool.and_eq_true]
    constructor
    · decide
    · rw [List.all_eq_true]
      intro c hc
      rcases List.mem_flatMap.mp hc with ⟨a, _, hca⟩
      simp only [charHex6, List.mem_cons, List.not_mem_nil, or_false] at hca
      rcases hca with h | h | h | h | h | h <;> (subst h; exact hexDigit_hex _)

theorem refMarker_split (B : List Char) :
    splitn2C ':' (refMarker ++ B) = ("ref".data, some B) :=
  splitn2C_append ':' "ref".data B (by decide)

theorem refMarker_isPrefixOf_append (B : List Char) :
    refMarker.isPrefixOf (refMarker ++ B) = true := by
  simp [List.isPrefixOf_iff_prefix]

/-- C2 (code bug): storing the byte payload `[0xFF]` as a blob and
reading it back does not return the payload — `fs::read_to_string`
fails on the stored bytes, which are not valid UTF-8, so `get_object`
returns an error for every digest function and every prior store
contents. -/
theorem c2_blob_roundtrip_utf8_bug (shaB : List Nat → List Nat) (σ : BFiles) :
    get_objectB (hash_objectB shaB σ [255] .blob).2
      (hash_objectB shaB σ [255] .blob).1 .blob = .error .invalidUtf8 := by
  have hb : bLookup (hash_objectB shaB σ [255] .blob).2 (hash_objectB shaB σ [255] .blob).1
      = some (tagBytes .blob ++ 0 :: [255]) := by
    simp [hash_objectB, bLookup]
  simp only [get_objectB, hb]
  rfl

/-- C7: `read_tree` checks for the repository before its destructive
empty step; with no `.ugit` directory in the working directory it
panics before deleting anything, so no entry of the target directory is
removed (in this pure embedding, no emptied directory is ever
produced). -/
theorem c7_read_tree_requires_repository (σ : Files) (oid : List Char)
    (cwd : FsTree) (fuel : Nat) (h : hasUgit cwd = false) :
    read_tree σ oid cwd fuel = .error .panic ∧
    empty_current_directory cwd = .error .panic := by
  have he : empty_current_directory cwd = .error .panic := by
    simp [empty_current_directory, h]
  exact ⟨by simp [read_tree, he], he⟩

/-- Witness for C7 at a concrete repository-less working directory. -/
theorem c7_read_tree_requires_repository_witness :
    read_tree [] [] c7wCwd 1 = .error .panic ∧
    empty_current_directory c7wCwd = .error .panic :=
  c7_read_tree_requires_repository [] [] c7wCwd 1 (by decide)

/-- C9 (amended): reading a ref at a location with no file yields the
valueless non-symbolic `RefValue` rather than an error; but
dereferencing a symbolic ref whose target file does not exist fails
with the raw read error instead of completing resiliently. -/
theorem c9_missing_target_behaviour (σ : Files) (p A B : List Char)
    (deref : Bool) (fuel : Nat) :
    (fsLookup σ p = none → get_ref σ p deref fuel = .ok ⟨false, none, p⟩) ∧
    (fsLookup σ A = some (refMarker ++ B) → fsLookup σ B = none →
      get_ref σ A true (fuel + 2) = .error .ioError) := by
  constructor
  · intro h
    simp [get_ref, get_ref_file, h]
  · intro hA hB
    have hr : recur_deref σ true (fuel + 2) A = .error .ioError := by
      show recur_deref σ true (fuel + 1 + 1) A = .error .ioError
      simp only [recur_deref, hA, refMarker_isPrefixOf_append, if_true,
        refMarker_split, Option.getD_some]
      show recur_deref σ true (fuel + 1) B = .error .ioError
      simp only [recur_deref, hB]
    simp [get_ref, get_ref_file, hA, hr]

/-- Witness for C9 at a concrete one-ref chain with a missing target. -/
theorem c9_missing_target_behaviour_witness :
    get_ref c9wS (tagPath "t".data) true 5 = .ok ⟨false, none, tagPath "t".data⟩ ∧
    get_ref c9wS headPath true 2 = .error .ioError :=
  ⟨(c9_missing_target_behaviour c9wS (tagPath "t".data) headPath (headsPath "b".data)
      true 5).1 (by rfl),
   (c9_missing_target_behaviour c9wS (tagPath "t".data) headPath (headsPath "b".data)
      true 0).2 (by rfl) (by rfl)⟩

/-- C9 counterexample: dereferencing HEAD, a symbolic ref whose target
file does not exist, returns an error, where the claim asserts the read
completes without one. -/
theorem c9_chain_error_counterexample :
    get_ref c9wS headPath true 2 = .error .ioError := by rfl

/-- C5 (amended): with ref A written symbolically to ref B and B
holding a commit OID directly, reading A with dereferencing yields the
OID; reading A without dereferencing yields the literal pointer to B as
the value, but with the `symbolic` flag false — the flag is computed on
the value after the marker is already stripped, not on the file
contents. -/
theorem c5_ref_chain (σ : Files) (A B c : List Char)
    (hA : fsLookup σ A = some (refMarker ++ B))
    (hB : fsLookup σ B = some c)
    (hpB : refMarker.isPrefixOf B = false)
    (hpc : refMarker.isPrefixOf c = false) :
    get_ref σ A true 2 = .ok ⟨false, some c, A⟩ ∧
    get_ref σ A false 1 = .ok ⟨false, some B, A⟩ := by
  constructor
  · have hr : recur_deref σ true 2 A = .ok c := by
      show recur_deref σ true (1 + 1) A = .ok c
      simp only [recur_deref, hA, refMarker_isPrefixOf_append, if_true,
        refMarker_split, Option.getD_some]
      show recur_deref σ true 1 B = .ok c
      simp only [recur_deref, hB, hpc, Bool.false_eq_true, if_false]
    simp [get_ref, get_ref_file, hA, hr, hpc]
  · have hr : recur_deref σ false 1 A = .ok B := by
      simp only [recur_deref, hA, refMarker_isPrefixOf_append, if_true,
        refMarker_split, Option.getD_some]
      simp
    simp [get_ref, get_ref_file, hA, hr, hpB]

/-- Witness for C5's amended behaviour on a concrete two-ref chain. -/
theorem c5_ref_chain_witness :
    get_ref c5S headPath true 2 = .ok ⟨false, some c5C, headPath⟩ ∧
    get_ref c5S headPath false 1 = .ok ⟨false, some c5B, headPath⟩ :=
  c5_ref_chain c5S headPath c5B c5C (by rfl) (by rfl) (by decide) (by decide)

/-- C5 counterexample: reading the symbolic ref A without dereferencing
returns the pointer to B with `symbolic := false`, where the claim says
the result is marked symbolic. -/
theorem c5_symbolic_flag_counterexample :
    get_ref c5S headPath false 1 = .ok ⟨false, some c5B, headPath⟩ ∧
    get_ref c5S headPath false 1 ≠ .ok ⟨true, some c5B, headPath⟩ :=
  ⟨by rfl, by decide⟩

/-- C8: a ref write panics — it never writes silently — whenever the
value is empty, or the value (after one marker-stripping step) names an
OID whose stored object either does not exist or is neither an all-hex
file (a ref to another OID) nor tagged `commit`. -/
theorem c8_invalid_ref_write_panics (σ : Files) (rv : RefValue) (deref : Bool)
    (fuel : Nat) (rv' : RefValue)
    (hres : get_ref σ rv.path deref fuel = .ok rv')
    (hbad : rv.value = none ∨
      ∃ v, rv.value = some v ∧
        ∀ c, fsLookup σ (objPath (stripOne (write_value rv v))) = some c →
          is_hex c = false ∧ (splitn2C nulC c).1 ≠ "commit".data) :
    update_ref σ rv deref fuel = .error .panic := by
  simp only [update_ref, hres]
  rcases hbad with hnone | ⟨v, hv, hbadv⟩
  · rw [hnone]
  · rw [hv]
    have hval : validate_user_given_ref σ (write_value rv v) = false := by
      have hfold : (if refMarker.isPrefixOf (write_value rv v) then
            (splitn2C ':' (write_value rv v)).2.getD []
          else write_value rv v) = stripOne (write_value rv v) := rfl
      simp only [validate_user_given_ref]
      rw [hfold]
      cases hl : fsLookup σ (objPath (stripOne (write_value rv v))) with
      | none => simp [hl]
      | some c =>
        have hc := hbadv c hl
        simp only [hl]
        simp [hc.1, decide_eq_false hc.2]
    simp [update_ref_file, hval]

/-- Witness for C8: writing a branch ref that names a blob-tagged
object panics. -/
theorem c8_invalid_ref_write_panics_witness :
    update_ref c8wS c8wRv true 1 = .error .panic :=
  c8_invalid_ref_write_panics c8wS c8wRv true 1 ⟨false, none, headsPath "b".data⟩
    (by rfl)
    (Or.inr ⟨"aa".data, rfl, fun c hc => by
      have hc' : some (tagged .blob "x".data) = some c := by
        rw [← hc]
        rfl
      injection hc' with h
      subst h
      exact ⟨by decide, by decide⟩⟩)

theorem parseCommit_panic :
    ∀ (lines : List (List Char)) (t : List Char) (p : Option (List Char)),
    ((∃ l ∈ lines.takeWhile (· ≠ []),
        (splitn2C ' ' l).1 ≠ "tree".data ∧ (splitn2C ' ' l).1 ≠ "parent".data)
      ∨ (lines.dropWhile (· ≠ [])).length ≤ 1) →
    parseCommit lines t p = .error .panic := by
  intro lines
  induction lines with
  | nil => intro t p _; rfl
  | cons line rest ih =>
    intro t p hbad
    cases line with
    | nil =>
      rcases hbad with ⟨l, hl, _⟩ | hlen
      · simp [List.takeWhile] at hl
      · have hd : ((([] : List Char) :: rest).dropWhile (· ≠ [])) = [] :: rest := by
          simp [List.dropWhile]
        rw [hd] at hlen
        simp only [List.length_cons] at hlen
        have hr : rest.length = 0 := by omega
        have : rest = [] := List.length_eq_zero.mp hr
        subst this
        rfl
    | cons a l =>
      have htake : (((a :: l) :: rest).takeWhile (· ≠ []))
          = (a :: l) :: rest.takeWhile (· ≠ []) := by
        simp [List.takeWhile]
      have hdrop : (((a :: l) :: rest).dropWhile (· ≠ []))
          = rest.dropWhile (· ≠ []) := by
        simp [List.dropWhile]
      have hbad' : ((∃ x ∈ rest.takeWhile (· ≠ []),
            (splitn2C ' ' x).1 ≠ "tree".data ∧ (splitn2C ' ' x).1 ≠ "parent".data)
          ∨ (rest.dropWhile (· ≠ [])).length ≤ 1) ∨
          ((splitn2C ' ' (a :: l)).1 ≠ "tree".data ∧
           (splitn2C ' ' (a :: l)).1 ≠ "parent".data) := by
        rcases hbad with ⟨x, hx, hxw⟩ | hlen
        · rw [htake] at hx
          rcases List.mem_cons.mp hx with hx | hx
          · exact Or.inr (hx ▸ hxw)
          · exact Or.inl (Or.inl ⟨x, hx, hxw⟩)
        · rw [hdrop] at hlen
          exact Or.inl (Or.inr hlen)
      show parseCommit ((a :: l) :: rest) t p = .error .panic
      by_cases hw : (splitn2C ' ' (a :: l)).1 = "tree".data
      · simp only [parseCommit, hw, if_true]
        cases h2 : (splitn2C ' ' (a :: l)).2 with
        | none => rfl
        | some v =>
          apply ih
          rcases hbad' with h | h
          · exact h
          · exact absurd hw h.1
      · by_cases hw2 : (splitn2C ' ' (a :: l)).1 = "parent".data
        · simp only [parseCommit, hw, hw2, if_true, if_false]
          cases h2 : (splitn2C ' ' (a :: l)).2 with
          | none => rfl
          | some v =>
            apply ih
            rcases hbad' with h | h
            · exact h
            · exact absurd hw2 h.2
        · simp [parseCommit, hw, hw2]

/-- C10: `get_commit` panics — rather than returning a recoverable
error — on every stored commit payload whose header block has a line
whose first word is neither `tree` nor `parent`, and on every payload
with no line after the header block (no blank line at all, or a blank
line with nothing after it). -/
theorem c10_get_commit_panics (σ : Files) (oid payload : List Char)
    (hstore : fsLookup σ (objPath oid) = some (tagged .commit payload))
    (hbad : (∃ l ∈ headerOf payload,
        (splitn2C ' ' l).1 ≠ "tree".data ∧ (splitn2C ' ' l).1 ≠ "parent".data)
      ∨ (afterHeader payload).length ≤ 1) :
    get_commit σ oid = .error .panic := by
  simp only [get_commit]
  rw [get_object_of_lookup _ _ _ _ hstore]
  exact parseCommit_panic (rustLines payload) [] none hbad

/-- Witness for C10: a stored commit whose header line starts with the
word `foo` makes `get_commit` panic. -/
theorem c10_get_commit_panics_witness :
    get_commit c10wS "aa".data = .error .panic :=
  c10_get_commit_panics c10wS "aa".data "foo bar\n\nmsg".data (by rfl)
    (Or.inl ⟨"foo bar".data, by decide, by decide, by decide⟩)

theorem grf_false_eq (σ : Files) (p : List Char) :
    get_ref_file σ p false 1
      = (fsLookup σ p).map fun c =>
          .ok ⟨refMarker.isPrefixOf (stripOne c), some (stripOne c), p⟩ := by
  cases h : fsLookup σ p with
  | none => simp [get_ref_file, h]
  | some c =>
    simp only [get_ref_file, h, Option.map_some]
    have hr : recur_deref σ false 1 p = .ok (stripOne c) := by
      simp only [recur_deref, h, stripOne]
      by_cases hp : refMarker.isPrefixOf c
      · simp [hp]
      · simp [hp]
    rw [hr]
    rfl

/-- C4: whenever a name resolves under two or more of the four
independent checks (tag, branch, raw OID, HEAD alias) —
in particular when a tag and a branch share the name — `locate`
returns the ambiguity error instead of any candidate's value. -/
theorem c4_ambiguous_name (σ : Files) (s : List Char)
    (h : 2 ≤ locateCount σ s) :
    locate_ref_or_oid σ s = some (.error .ambiguousRef) := by
  simp only [locateCount] at h
  simp only [locate_ref_or_oid, grf_false_eq]
  by_cases hH : (s = "HEAD".data ∨ s = "@".data)
  · rcases h4 : fsLookup σ headPath with _ | c4 <;>
    rcases h1 : fsLookup σ (tagPath s) with _ | c1 <;>
    rcases h2 : fsLookup σ (headsPath s) with _ | c2 <;>
    rcases h3 : fsLookup σ (objPath s) with _ | c3 <;>
    simp only [h1, h2, h3, h4, hH, Option.map_some, Option.map_none, locStep,
      Option.isSome_some, Option.isSome_none, Bool.false_eq_true, if_true,
      if_false, true_and, and_true, true_or, or_true] at h ⊢ <;>
    first
      | omega
      | simp
  · rcases h1 : fsLookup σ (tagPath s) with _ | c1 <;>
    rcases h2 : fsLookup σ (headsPath s) with _ | c2 <;>
    rcases h3 : fsLookup σ (objPath s) with _ | c3 <;>
    simp only [h1, h2, h3, hH, Option.map_some, Option.map_none, locStep,
      Option.isSome_some, Option.isSome_none, Bool.false_eq_true, if_true,
      if_false, false_and, and_false] at h ⊢ <;>
    first
      | omega
      | simp

/-- Witness for C4: a tag and a branch both named `v1` make `locate`
return the ambiguity error. -/
theorem c4_ambiguous_name_witness :
    locate_ref_or_oid c4wS "v1".data = some (.error .ambiguousRef) :=
  c4_ambiguous_name c4wS "v1".data (by decide)

/-- C3 (amended): when exactly one of the four independent checks
succeeds, `locate` returns that check's value after one
marker-stripping step — for a tag, branch or HEAD match this is the ref
file's stored value, and for a raw-OID match it is the stored object
file's raw contents (tag byte, NUL and payload), not the OID itself;
when no check succeeds it returns `none`, distinct from every error. -/
theorem c3_locate_single_match (σ : Files) (s c : List Char) :
    (fsLookup σ (tagPath s) = some c → fsLookup σ (headsPath s) = none →
      fsLookup σ (objPath s) = none →
      (¬(s = "HEAD".data ∨ s = "@".data) ∨ fsLookup σ headPath = none) →
      locate_ref_or_oid σ s = some (.ok (stripOne c))) ∧
    (fsLookup σ (tagPath s) = none → fsLookup σ (headsPath s) = some c →
      fsLookup σ (objPath s) = none →
      (¬(s = "HEAD".data ∨ s = "@".data) ∨ fsLookup σ headPath = none) →
      locate_ref_or_oid σ s = some (.ok (stripOne c))) ∧
    (fsLookup σ (tagPath s) = none → fsLookup σ (headsPath s) = none →
      fsLookup σ (objPath s) = some c →
      (¬(s = "HEAD".data ∨ s = "@".data) ∨ fsLookup σ headPath = none) →
      locate_ref_or_oid σ s = some (.ok (stripOne c))) ∧
    ((s = "HEAD".data ∨ s = "@".data) → fsLookup σ headPath = some c →
      fsLookup σ (tagPath s) = none → fsLookup σ (headsPath s) = none →
      fsLookup σ (objPath s) = none →
      locate_ref_or_oid σ s = some (.ok (stripOne c))) ∧
    (fsLookup σ (tagPath s) = none → fsLookup σ (headsPath s) = none →
      fsLookup σ (objPath s) = none →
      (¬(s = "HEAD".data ∨ s = "@".data) ∨ fsLookup σ headPath = none) →
      locate_ref_or_oid σ s = none) := by
  refine ⟨?_, ?_, ?_, ?_, ?_⟩
  · intro h1 h2 h3 hH
    rcases hH with hH | hH
    · simp [locate_ref_or_oid, grf_false_eq, h1, h2, h3, locStep, hH]
    · by_cases hs : (s = "HEAD".data ∨ s = "@".data)
      · simp [locate_ref_or_oid, grf_false_eq, h1, h2, h3, hH, hs, locStep]
      · simp [locate_ref_or_oid, grf_false_eq, h1, h2, h3, hs, locStep]
  · intro h1 h2 h3 hH
    rcases hH with hH | hH
    · simp [locate_ref_or_oid, grf_false_eq, h1, h2, h3, locStep, hH]
    · by_cases hs : (s = "HEAD".data ∨ s = "@".data)
      · simp [locate_ref_or_oid, grf_false_eq, h1, h2, h3, hH, hs, locStep]
      · simp [locate_ref_or_oid, grf_false_eq, h1, h2, h3, hs, locStep]
  · intro h1 h2 h3 hH
    rcases hH with hH | hH
    · simp [locate_ref_or_oid, grf_false_eq, h1, h2, h3, locStep, hH]
    · by_cases hs : (s = "HEAD".data ∨ s = "@".data)
      · simp [locate_ref_or_oid, grf_false_eq, h1, h2, h3, hH, hs, locStep]
      · simp [locate_ref_or_oid, grf_false_eq, h1, h2, h3, hs, locStep]
  · intro hs h4 h1 h2 h3
    simp [locate_ref_or_oid, grf_false_eq, h1, h2, h3, h4, hs, locStep]
  · intro h1 h2 h3 hH
    rcases hH with hH | hH
    · simp [locate_ref_or_oid, grf_false_eq, h1, h2, h3, locStep, hH]
    · by_cases hs : (s = "HEAD".data ∨ s = "@".data)
      · simp [locate_ref_or_oid, grf_false_eq, h1, h2, h3, hH, hs, locStep]
      · simp [locate_ref_or_oid, grf_false_eq, h1, h2, h3, hs, locStep]

/-- Witness for C3: a lone tag resolves to its stored value, and an
unknown name yields `none` rather than an error. -/
theorem c3_locate_single_match_witness :
    locate_ref_or_oid [(tagPath "v".data, "cc".data)] "v".data
      = some (.ok (stripOne "cc".data)) ∧
    locate_ref_or_oid [] "w".data = none :=
  ⟨(c3_locate_single_match [(tagPath "v".data, "cc".data)] "v".data "cc".data).1
      (by rfl) (by rfl) (by rfl) (Or.inl (by decide)),
   (c3_locate_single_match [] "w".data []).2.2.2.2
      (by rfl) (by rfl) (by rfl) (Or.inl (by decide))⟩

/-- C3 counterexample: for a name that is the OID of an existing stored
object (with no ref of that name), `locate` returns the object file's
raw contents — tag, NUL and payload — not the resolved OID the claim
promises, which would be the name itself. -/
theorem c3_raw_oid_counterexample :
    locate_ref_or_oid c3xS c3xName = some (.ok (tagged .commit c3xPayload)) ∧
    tagged .commit c3xPayload ≠ c3xName := by
  constructor
  · rfl
  · decide

theorem splitOnC_singleton_nil (c : Char) (xs : List Char)
    (h : splitOnC c xs = [[]]) : xs = [] := by
  cases xs with
  | nil => rfl
  | cons x rest =>
    exfalso
    simp only [splitOnC] at h
    by_cases hx : x = c
    · rw [if_pos hx] at h
      simp only [List.cons.injEq] at h
      exact splitOnC_ne_nil c rest h.2
    · rw [if_neg hx] at h
      rcases hr : splitOnC c rest with _ | ⟨hh, tt⟩ <;> rw [hr] at h <;>
        simp at h

theorem parseCommit_tree_step (v : List Char) (rest : List (List Char))
    (t : List Char) (p : Option (List Char)) :
    parseCommit (("tree ".data ++ v) :: rest) t p = parseCommit rest v p := by
  have hs : splitn2C ' ' ('t' :: 'r' :: 'e' :: 'e' :: ' ' :: v)
      = (['t', 'r', 'e', 'e'], some v) :=
    splitn2C_append ' ' "tree".data v (by decide)
  show parseCommit (('t' :: ("ree ".data ++ v)) :: rest) t p = parseCommit rest v p
  simp [parseCommit, hs]

theorem parseCommit_parent_step (v : List Char) (rest : List (List Char))
    (t : List Char) (p : Option (List Char)) :
    parseCommit (("parent ".data ++ v) :: rest) t p = parseCommit rest t (some v) := by
  have hs : splitn2C ' ' ('p' :: 'a' :: 'r' :: 'e' :: 'n' :: 't' :: ' ' :: v)
      = (['p', 'a', 'r', 'e', 'n', 't'], some v) :=
    splitn2C_append ' ' "parent".data v (by decide)
  show parseCommit (('p' :: ("arent ".data ++ v)) :: rest) t p = parseCommit rest t (some v)
  simp [parseCommit, hs]

theorem parseCommit_blank (M : List (List Char)) (t : List Char) (p : Option (List Char))
    (hM : M ≠ []) (ht : t ≠ []) :
    parseCommit ([] :: M) t p = .ok ⟨joinWith ['\n'] M, p, t⟩ := by
  cases M with
  | nil => exact absurd rfl hM
  | cons m ms => simp [parseCommit, ht]

theorem parseCommit_two (t2 o1 m2 : List Char)
    (htn : '\n' ∉ t2) (htne : t2 ≠ []) (htr : t2.getLast? ≠ some '\r')
    (hon : '\n' ∉ o1) (hor : o1.getLast? ≠ some '\r') (hm : m2 ≠ []) :
    ∃ msg, parseCommit (rustLines
        ("tree ".data ++ (t2 ++ ("\nparent ".data ++ (o1 ++ ("\n\n".data ++ m2))))))
        [] none = .ok ⟨msg, some o1, t2⟩ := by
  have hl1 : '\n' ∉ "tree ".data ++ t2 := by
    intro hmem
    rcases List.mem_append.mp hmem with h | h
    · revert h; decide
    · exact htn h
  have hl2 : '\n' ∉ "parent ".data ++ o1 := by
    intro hmem
    rcases List.mem_append.mp hmem with h | h
    · revert h; decide
    · exact hon h
  have hl1s : stripCR ("tree ".data ++ t2) = "tree ".data ++ t2 :=
    stripCR_of_ne _ (append_getLast_ne_cr _ _ (by decide) htr)
  have hl2s : stripCR ("parent ".data ++ o1) = "parent ".data ++ o1 :=
    stripCR_of_ne _ (append_getLast_ne_cr _ _ (by decide) hor)
  have hshape : ("tree ".data ++ (t2 ++ ("\nparent ".data ++ (o1 ++ ("\n\n".data ++ m2)))))
      = ("tree ".data ++ t2) ++ '\n' :: (("parent ".data ++ o1) ++ '\n' :: ('\n' :: m2)) := by
    simp [List.append_assoc]
  have hsplit : splitOnC '\n'
      ("tree ".data ++ (t2 ++ ("\nparent ".data ++ (o1 ++ ("\n\n".data ++ m2)))))
      = ("tree ".data ++ t2) :: ("parent ".data ++ o1) :: [] :: splitOnC '\n' m2 := by
    rw [hshape, splitOnC_append '\n' _ _ hl1, splitOnC_append '\n' _ _ hl2]
    congr 2
  rcases hS : splitOnC '\n' m2 with _ | ⟨s0, S'⟩
  · exact absurd hS (splitOnC_ne_nil '\n' m2)
  · by_cases hlast : ((s0 :: S').getLast? = some [])
    · -- string ends in a line terminator: lines() drops the empty final segment
      have hdne : (s0 :: S').dropLast ≠ [] := by
        cases S' with
        | nil =>
          exfalso
          simp only [List.getLast?_singleton, Option.some.injEq] at hlast
          subst hlast
          exact hm (splitOnC_singleton_nil '\n' m2 hS)
        | cons s1 S'' => simp
      have hlines : rustLines
          ("tree ".data ++ (t2 ++ ("\nparent ".data ++ (o1 ++ ("\n\n".data ++ m2)))))
          = ("tree ".data ++ t2) :: ("parent ".data ++ o1) :: []
            :: ((s0 :: S').dropLast).map stripCR := by
        rw [rustLines, hsplit, hS]
        rw [if_pos (by simpa using hlast)]
        simp only [List.dropLast_cons₂, List.map_cons]
        rw [hl1s, hl2s]
        rfl
      refine ⟨joinWith ['\n'] (((s0 :: S').dropLast).map stripCR), ?_⟩
      rw [hlines, parseCommit_tree_step, parseCommit_parent_step,
        parseCommit_blank _ t2 (some o1)
          (fun hc => hdne (List.map_eq_nil_iff.mp hc)) htne]
    · -- no trailing terminator: the final segment is kept verbatim
      obtain ⟨v, hv⟩ : ∃ v, (s0 :: S').getLast? = some v :=
        ⟨_, List.getLast?_eq_getLast (s0 :: S') (by simp)⟩
      have hlines : rustLines
          ("tree ".data ++ (t2 ++ ("\nparent ".data ++ (o1 ++ ("\n\n".data ++ m2)))))
          = ("tree ".data ++ t2) :: ("parent ".data ++ o1) :: []
            :: (((s0 :: S').dropLast).map stripCR ++ [v]) := by
        rw [rustLines, hsplit, hS]
        rw [if_neg (by simpa using hlast)]
        simp only [List.getLast?_cons_cons]
        rw [hv]
        simp only [List.dropLast_cons₂, List.map_cons, Option.toList]
        rw [hl1s, hl2s]
        rfl
      refine ⟨joinWith ['\n'] (((s0 :: S').dropLast).map stripCR ++ [v]), ?_⟩
      rw [hlines, parseCommit_tree_step, parseCommit_parent_step,
        parseCommit_blank _ t2 (some o1) (by simp) htne]

theorem get_head_of_lookup (σ : Files) (o : List Char)
    (h : fsLookup σ headPath = some o) (hm : refMarker.isPrefixOf o = false) :
    get_head σ = some (.ok o) := by
  have hr : recur_deref σ false 1 headPath = .ok o := by
    simp only [recur_deref, h, hm, Bool.false_eq_true, if_false]
  simp [get_head, get_ref_file, h, hr]

theorem commit_ok (sha : List Char → List Char) (σ : Files) (d : FsTree)
    (m o : List Char) (σ' : Files) (h : commit sha σ d m = .ok (o, σ')) :
    ∃ t σmid, write_tree_recursive sha d σ = .ok (t, σmid) ∧
      ((∃ hv, get_head σmid = some (.ok hv) ∧
        o = sha (tagged .commit
          ("tree ".data ++ t ++ "\nparent ".data ++ hv ++ "\n\n".data ++ m)) ∧
        σ' = (headPath, o) :: (objPath o, tagged .commit
          ("tree ".data ++ t ++ "\nparent ".data ++ hv ++ "\n\n".data ++ m)) :: σmid)
      ∨ (get_head σmid = none ∧
        o = sha (tagged .commit ("tree ".data ++ t ++ "\n\n".data ++ m)) ∧
        σ' = (headPath, o) :: (objPath o, tagged .commit
          ("tree ".data ++ t ++ "\n\n".data ++ m)) :: σmid)) := by
  unfold commit at h
  split at h
  · exact absurd h (by simp)
  · next t σmid heq =>
    refine ⟨t, σmid, heq, ?_⟩
    split at h
    · exact absurd h (by simp)
    · next hv hh =>
      left
      simp only [hash_object, fsWrite] at h
      split at h
      · next heq2 => exact absurd h (by simp)
      · next σ3 heq2 =>
        simp only [set_head, update_ref_file] at heq2
        split at heq2
        · simp only [Except.ok.injEq] at heq2
          simp only [Except.ok.injEq, Prod.mk.injEq] at h
          refine ⟨hv, hh, h.1.symm, ?_⟩
          rw [← h.2, ← heq2, ← h.1]
          rfl
        · exact absurd heq2 (by simp)
    · next hh =>
      right
      simp only [hash_object, fsWrite] at h
      split at h
      · next heq2 => exact absurd h (by simp)
      · next σ3 heq2 =>
        simp only [set_head, update_ref_file] at heq2
        split at heq2
        · simp only [Except.ok.injEq] at heq2
          simp only [Except.ok.injEq, Prod.mk.injEq] at h
          refine ⟨hh, h.1.symm, ?_⟩
          rw [← h.2, ← heq2, ← h.1]
          rfl
        · exact absurd heq2 (by simp)

/-- C6: committing twice produces a second commit record whose `parent`
is the OID returned by the first commit, and afterwards HEAD holds the
second commit's OID. -/
theorem c6_commit_chain (sha : List Char → List Char) (σ0 σ1 σ2 : Files)
    (d1 d2 : FsTree) (m1 m2 o1 o2 : List Char)
    (hhex : ShaHex sha) (hm2 : m2 ≠ [])
    (h1 : commit sha σ0 d1 m1 = .ok (o1, σ1))
    (h2 : commit sha σ1 d2 m2 = .ok (o2, σ2)) :
    (∃ rec, get_commit σ2 o2 = .ok rec ∧ rec.parent = some o1) ∧
    get_head σ2 = some (.ok o2) := by
  obtain ⟨t1, σm1, hw1, hc1⟩ := commit_ok sha σ0 d1 m1 o1 σ1 h1
  have hσ1head : fsLookup σ1 headPath = some o1 := by
    rcases hc1 with ⟨hv, _, _, hs⟩ | ⟨_, _, hs⟩ <;> rw [hs] <;> simp [fsLookup]
  have ho1sha : ∃ y, o1 = sha y := by
    rcases hc1 with ⟨hv, _, ho, _⟩ | ⟨_, ho, _⟩ <;> exact ⟨_, ho⟩
  obtain ⟨y1, ho1⟩ := ho1sha
  have ho1hex : is_hex o1 = true := by rw [ho1]; exact (hhex y1).2
  have ho1ne : o1 ≠ [] := by rw [ho1]; exact (hhex y1).1
  have ho1marker := hex_not_marker o1 ho1hex ho1ne
  have ho1nl : '\n' ∉ o1 := (hex_not_mem o1 ho1hex).1
  obtain ⟨t2, σm2, hw2, hc2⟩ := commit_ok sha σ1 d2 m2 o2 σ2 h2
  have hpres : fsLookup σm2 headPath = some o1 := by
    rw [write_tree_pres sha d2 σ1 t2 σm2 hw2 headPath headPath_ne_objPath]
    exact hσ1head
  have hgh : get_head σm2 = some (.ok o1) := get_head_of_lookup σm2 o1 hpres ho1marker
  rcases hc2 with ⟨hv, hghv, ho2, hσ2⟩ | ⟨hghn, _, _⟩
  · rw [hgh] at hghv
    have hveq : o1 = hv := by
      have := Option.some.inj hghv
      exact Except.ok.inj this
    subst hveq
    obtain ⟨yt2, ht2⟩ := write_tree_oid_shape sha d2 σ1 t2 σm2 hw2
    have ht2hex : is_hex t2 = true := by rw [ht2]; exact (hhex yt2).2
    have ht2ne : t2 ≠ [] := by rw [ht2]; exact (hhex yt2).1
    have ht2nl : '\n' ∉ t2 := (hex_not_mem t2 ht2hex).1
    constructor
    · have hlook : fsLookup σ2 (objPath o2) = some (tagged .commit
          ("tree ".data ++ t2 ++ "\nparent ".data ++ o1 ++ "\n\n".data ++ m2)) := by
        rw [hσ2]
        simp only [fsLookup]
        rw [if_neg (headPath_ne_objPath o2)]
        simp
      have hobj := get_object_of_lookup σ2 o2 .commit _ hlook
      obtain ⟨msg, hparse⟩ := parseCommit_two t2 o1 m2 ht2nl ht2ne
        (hex_getLast_ne_cr t2 ht2hex) ho1nl (hex_getLast_ne_cr o1 ho1hex) hm2
      refine ⟨⟨msg, some o1, t2⟩, ?_, rfl⟩
      simp only [get_commit, hobj]
      have hassoc : ("tree ".data ++ t2 ++ "\nparent ".data ++ o1 ++ "\n\n".data ++ m2)
          = ("tree ".data ++ (t2 ++ ("\nparent ".data ++ (o1 ++ ("\n\n".data ++ m2))))) := by
        simp [List.append_assoc]
      rw [hassoc]
      exact hparse
    · have hlook2 : fsLookup σ2 headPath = some o2 := by
        rw [hσ2]
        simp [fsLookup]
      have ho2hex : is_hex o2 = true := by rw [ho2]; exact (hhex _).2
      have ho2ne : o2 ≠ [] := by rw [ho2]; exact (hhex _).1
      exact get_head_of_lookup σ2 o2 hlook2 (hex_not_marker o2 ho2hex ho2ne)
  · rw [hgh] at hghn
    exact absurd hghn (by simp)

/-- Witness for C6: two consecutive commits in a concrete repository. -/
theorem c6_commit_chain_witness :
    (∃ rec, get_commit c6r2.2 c6r2.1 = .ok rec ∧ rec.parent = some c6r1.1) ∧
    get_head c6r2.2 = some (.ok c6r2.1) :=
  c6_commit_chain shaAB [] c6r1.2 c6r2.2 .nil .nil "a".data "b".data c6r1.1 c6r2.1
    (fun x => ⟨(by decide : (['a', 'b'] : List Char) ≠ []),
      (by decide : is_hex ['a', 'b'] = true)⟩) (by decide) (by rfl) (by rfl)

/-- C1 (amended): for a directory whose entries are, recursively, only
non-ignored regular files and subdirectories, and whose entry names
contain no newline, restoring with `read_tree` from the OID returned by
the snapshot leaves the target holding exactly the snapshotted files:
the empty step keeps only ignored entries (and non-file non-directory
entries, which the loop never removes), and the restore then writes
exactly the original relative paths with their original contents, in
order.  The digest hypotheses are the spec's collision-freedom
assumption and the hex shape of real SHA-256 output; the fuel exceeds
the directory depth, as the source's unbounded recursion requires. -/
theorem c1_snapshot_restore (sha : List Char → List Char)
    (hinj : Function.Injective sha) (hhex : ShaHex sha)
    (d cwd : FsTree) (σ0 σf : Files) (fuel : Nat) (oid : List Char)
    (hclean : Clean d = true) (hnames : NamesOk d = true)
    (hfuel : depthT d < fuel) (hugit : hasUgit cwd = true)
    (hw : write_tree_recursive sha d σ0 = .ok (oid, σf)) :
    read_tree σf oid cwd fuel = .ok (emptiedDir cwd, filesOf [] d) :=
  read_after_write sha hinj hhex d cwd σ0 σf fuel oid hclean hnames hfuel hugit hw

set_option maxRecDepth 20000 in
/-- Witness for C1's amended round trip on a one-file directory. -/
theorem c1_snapshot_restore_witness :
    read_tree c1wRes.2 c1wRes.1 c1wCwd 1 = .ok (emptiedDir c1wCwd, filesOf [] c1wDir) :=
  c1_snapshot_restore hexEnc hexEnc_inj hexEnc_hex c1wDir c1wCwd [] c1wRes.2 1 c1wRes.1
    (by decide) (by decide) (by decide) (by decide) (by rfl)

set_option maxRecDepth 20000 in
/-- C1 counterexample: a directory containing a single file whose name
holds a newline snapshots successfully, but restoring from the returned
OID panics (an out-of-bounds index while parsing the corrupted tree
line) instead of reproducing the directory, so the claim fails without
the no-newline restriction. -/
theorem c1_newline_name_counterexample :
    write_tree_recursive hexEnc c1xDir [] = .ok (c1xRes.1, c1xRes.2) ∧
    read_tree c1xRes.2 c1xRes.1 c1wCwd 1 = .error .panic :=
  ⟨by rfl, by rfl⟩
